import Mathlib

/-!
Verification of the checkers rule engine and heuristic minimax agent of the
GamingRL repository.  The Python sources `env/rules.py` and
`agent/heuristic_agent.py` are shallowly embedded: numpy boards become total
functions from integer coordinates to integer cell values, the `Move` class
becomes a structure, and float scores (which only ever take integer values
plus the two infinities used as sentinels) become an extended-integer type.
-/

namespace Checkers

/-- Game configuration, from `CheckersRules.__init__` (rules.py lines 63-72).
The Python code reads these keys from a dict with the defaults used below. -/
structure Config where
  board_size : Nat
  capture_forced : Bool
  prefer_longest_capture : Bool
  king_on_last_row : Bool
deriving DecidableEq, Repr

/-- Default configuration values from `rules.py`. -/
def Config.default : Config := ⟨8, true, true, true⟩

/-- A board is modelled as a total function from (row, col) coordinates to
cell values; the Python code only ever reads or writes cells it has checked
to be on the board, so values outside the grid are irrelevant. Cell values:
0 empty; 1 and 2 are player +1's man and king; -1 and -2 player -1's. -/
abbrev Board := Int × Int → Int

/-- The `Move` class of rules.py (lines 8-50). -/
structure Move where
  from_pos : Int × Int
  to_pos : Int × Int
  captures : List (Int × Int)
  promotion : Bool
deriving DecidableEq, Repr

/-- Derived field `sequence_length` computed in `Move.__init__` (line 22):
`len(self.captures) + (1 if not self.captures else 0)`. -/
def Move.sequence_length (m : Move) : Nat :=
  m.captures.length + (if m.captures = [] then 1 else 0)

/-- Row-major list of all cells of an n-by-n board, the iteration order of
the nested `for row in range(n): for col in range(n)` loops. -/
def gridList (n : Nat) : List (Int × Int) :=
  (List.range n).flatMap (fun r : Nat => (List.range n).map (fun c : Nat => ((r : Int), (c : Int))))

/-- The cells of the n-by-n board as a finite set (used for counting). -/
def boardGrid (n : Nat) : Finset (Int × Int) :=
  Finset.Icc 0 ((n : Int) - 1) ×ˢ Finset.Icc 0 ((n : Int) - 1)

/-- `CheckersRules.is_valid_square` (rules.py lines 74-87): in bounds and a
dark square (row + col odd). -/
def is_valid_square (cfg : Config) (row col : Int) : Bool :=
  if ¬ (0 ≤ row ∧ row < (cfg.board_size : Int) ∧ 0 ≤ col ∧ col < (cfg.board_size : Int)) then
    false
  else (row + col) % 2 == 1

/-- `CheckersRules.get_move_directions` (rules.py lines 89-107). -/
def get_move_directions (piece_value : Int) (is_king : Bool) : List (Int × Int) :=
  if is_king then [(-1, -1), (-1, 1), (1, -1), (1, 1)]
  else if piece_value > 0 then [(1, -1), (1, 1)]
  else [(-1, -1), (-1, 1)]

/-- `CheckersRules.get_simple_moves` (rules.py lines 109-153). -/
def get_simple_moves (cfg : Config) (board : Board) (row col : Int) (player : Int) :
    List Move :=
  let piece_value := board (row, col)
  let is_king : Bool := piece_value.natAbs == 2
  (get_move_directions piece_value is_king).flatMap (fun d =>
    let new_row := row + d.1
    let new_col := col + d.2
    if ¬ is_valid_square cfg new_row new_col then []
    else if board (new_row, new_col) = 0 then
      let promo : Prop :=
        (¬ is_king = true) ∧
          ((player = 1 ∧ new_row = (cfg.board_size : Int) - 1) ∨
            (player = -1 ∧ new_row = 0))
      [⟨(row, col), (new_row, new_col), [], decide promo⟩]
    else [])

/-- Count contribution of one cell value to `capturableCount`: pieces the
given player may jump (nonzero, not of the player's sign). -/
def capQ (player x : Int) : Nat := if x ≠ 0 ∧ x * player ≤ 0 then 1 else 0

/-- Number of on-board pieces the given player could ever capture.  The
recursion of `_generate_captures_recursive` removes one such piece from the
board at every recursive call, so this (plus one) bounds its depth. -/
def capturableCount (cfg : Config) (board : Board) (player : Int) : Nat :=
  ∑ q ∈ boardGrid cfg.board_size, capQ player (board q)

/-- Termination measure for `generate_captures_recursive`: see
`genMeasure_decrease` below, it strictly decreases at each recursive call. -/
def genMeasure (cfg : Config) (board : Board) (row col player : Int) : Nat :=
  capturableCount cfg board player +
    (if (row, col) ∈ boardGrid cfg.board_size ∧ capQ player (board (row, col)) = 1
      then 0 else 1)

/-- `CheckersRules._generate_captures_recursive` (rules.py lines 173-268),
with an explicit fuel argument bounding the recursion depth; the theorem
`generate_captures_fuel_stable` below proves that any fuel of at least
`genMeasure` produces the same result, so `get_capture_moves`, which passes
`capturableCount + 1 ≥ genMeasure`, computes the fixpoint of the Python
recursion.  The Python reassignment of `directions` after a mid-sequence
promotion (lines 242-245) does not affect the ongoing `for` loop (Python
iterates over the original list object), so it is omitted; the promoted
piece still gains king directions in the recursive call because the new
board holds a king value at the landing square. -/
def generate_captures_recursive (cfg : Config) :
    Nat → Board → Int → Int → Int → List (Int × Int) → List Move
  | 0, _, _, _, _, _ => []
  | fuel + 1, board, row, col, player, captures_so_far =>
    let piece_value := board (row, col)
    let is_king : Bool := piece_value.natAbs == 2
    (get_move_directions piece_value is_king).flatMap (fun d =>
      let jump_row := row + d.1
      let jump_col := col + d.2
      if ¬ is_valid_square cfg jump_row jump_col then []
      else
        let jumped_piece := board (jump_row, jump_col)
        if jumped_piece = 0 ∨ jumped_piece * player > 0 then []
        else
          let land_row := jump_row + d.1
          let land_col := jump_col + d.2
          if ¬ is_valid_square cfg land_row land_col then []
          else if ¬ (board (land_row, land_col) = 0) then []
          else
            let b1 := Function.update board (land_row, land_col) (board (row, col))
            let b2 := Function.update b1 (row, col) 0
            let b3 := Function.update b2 (jump_row, jump_col) 0
            let new_promotion : Prop :=
              (¬ is_king = true) ∧
                ((player = 1 ∧ land_row = (cfg.board_size : Int) - 1) ∨
                  (player = -1 ∧ land_row = 0))
            let b4 :=
              if new_promotion then
                Function.update b3 (land_row, land_col) (if player = 1 then 2 else -2)
              else b3
            let new_captures := captures_so_far ++ [(jump_row, jump_col)]
            let additional :=
              generate_captures_recursive cfg fuel b4 land_row land_col player new_captures
            if additional ≠ [] then additional
            else
              [⟨(row, col), (land_row, land_col), new_captures,
                decide (new_promotion ∨ (captures_so_far.length = 0 ∧ new_promotion))⟩])

/-- `CheckersRules.get_capture_moves` (rules.py lines 155-171). -/
def get_capture_moves (cfg : Config) (board : Board) (row col : Int) (player : Int) :
    List Move :=
  generate_captures_recursive cfg (capturableCount cfg board player + 1)
    board row col player []

/-- Predicate of the piece-ownership test in `get_legal_moves` (rules.py
lines 288-298): valid square, nonzero piece, belonging to the player. -/
def owns_piece (cfg : Config) (board : Board) (player : Int) (q : Int × Int) : Prop :=
  is_valid_square cfg q.1 q.2 = true ∧ board q ≠ 0 ∧
    ((player = 1 ∧ board q > 0) ∨ (player = -1 ∧ board q < 0))

instance (cfg board player q) : Decidable (owns_piece cfg board player q) := by
  unfold owns_piece; infer_instance

/-- All simple moves collected by the scan loop of `get_legal_moves`
(`all_moves`, rules.py lines 282-301). -/
def simpleMovesOf (cfg : Config) (board : Board) (player : Int) : List Move :=
  (gridList cfg.board_size).flatMap (fun q =>
    if owns_piece cfg board player q then get_simple_moves cfg board q.1 q.2 player
    else [])

/-- All capture moves collected by the scan loop of `get_legal_moves`
(`capture_moves`, rules.py lines 282-305). -/
def captureMovesOf (cfg : Config) (board : Board) (player : Int) : List Move :=
  (gridList cfg.board_size).flatMap (fun q =>
    if owns_piece cfg board player q then get_capture_moves cfg board q.1 q.2 player
    else [])

/-- `CheckersRules.get_legal_moves` (rules.py lines 270-318).  Note that the
Python `all_moves` list contains exactly the simple moves (captures are
accumulated separately in `capture_moves`), and `max(...)` over a nonempty
list of nonnegative lengths equals the fold of `max` with initial value 0. -/
def get_legal_moves (cfg : Config) (board : Board) (player : Int) : List Move :=
  let capture_moves := captureMovesOf cfg board player
  if cfg.capture_forced = true ∧ capture_moves ≠ [] then
    if cfg.prefer_longest_capture = true then
      let max_captures := (capture_moves.map (fun m => m.captures.length)).foldr max 0
      capture_moves.filter (fun m => m.captures.length == max_captures)
    else capture_moves
  else simpleMovesOf cfg board player

/-- `CheckersRules.apply_move` (rules.py lines 320-349): remove the captured
pieces, move the piece from `from_pos` to `to_pos` (in the written order of
the numpy cell assignments), then crown on promotion. -/
def apply_move (cfg : Config) (board : Board) (move : Move) (player : Int) : Board :=
  let b1 := move.captures.foldl (fun bb cap => Function.update bb cap 0) board
  let piece_value := b1 move.from_pos
  let b2 := Function.update b1 move.to_pos piece_value
  let b3 := Function.update b2 move.from_pos 0
  if move.promotion then Function.update b3 move.to_pos (if player = 1 then 2 else -2)
  else b3

/-- `CheckersRules.is_terminal` (rules.py lines 351-392).  The scan loop
sets `player_has_pieces` from positive cells and `opponent_has_pieces` from
negative cells regardless of who `current_player` is. -/
def is_terminal (cfg : Config) (board : Board) (current_player : Int) :
    Bool × Option Int :=
  let player_has_pieces :=
    (gridList cfg.board_size).any
      (fun q => is_valid_square cfg q.1 q.2 && decide (board q > 0))
  let opponent_has_pieces :=
    (gridList cfg.board_size).any
      (fun q => is_valid_square cfg q.1 q.2 && decide (board q < 0))
  if ¬ opponent_has_pieces then (true, some current_player)
  else if ¬ player_has_pieces then (true, some (-current_player))
  else if get_legal_moves cfg board (-current_player) = [] then (true, some current_player)
  else if get_legal_moves cfg board current_player = [] then (true, some (-current_player))
  else (false, none)

/-- Count of nonempty cells of the n-by-n board, the observable used by the
conservation claim about `apply_move`. -/
def totalPieces (n : Nat) (b : Board) : Nat :=
  ((gridList n).filter (fun q => b q ≠ 0)).length

/-!
The heuristic agent (`agent/heuristic_agent.py`).  Scores are Python floats,
but every value the agent computes is either an integer-valued float
(sums and differences of the weights 10.0, 15.0, 1.0 and 10000.0 plus a
depth) or one of the sentinels `float('inf')` and `-float('inf')`, on which
the code only performs comparisons, `max` and `min`; all these operations
are exact on such values, so floats are modelled by integers extended with
two infinities.
-/

/-- Extended integers: the score domain of the heuristic agent.  `ninf` and
`pinf` model `-float('inf')` and `float('inf')`. -/
inductive F where
  | ninf : F
  | val : Int → F
  | pinf : F
deriving DecidableEq

/-- Order on extended integers, as Python float comparison. -/
def F.le : F → F → Prop
  | .ninf, _ => True
  | _, .pinf => True
  | .val x, .val y => x ≤ y
  | _, _ => False

instance : DecidableRel F.le := fun a b => by
  cases a <;> cases b <;> simp only [F.le] <;> infer_instance

instance : LinearOrder F where
  le := F.le
  le_refl a := by cases a <;> simp [F.le]
  le_trans a b c hab hbc := by
    cases a <;> cases b <;> cases c <;> simp_all [F.le] <;> exact le_trans hab hbc
  le_antisymm a b hab hba := by
    cases a <;> cases b <;> simp_all [F.le]
    exact le_antisymm hab hba
  le_total a b := by
    cases a <;> cases b <;> simp [F.le]
    exact le_total _ _
  decidableLE := inferInstanceAs (DecidableRel F.le)

/-- Weight of a man, `HeuristicAgent.W_MAN`. -/
def W_MAN : Int := 10

/-- Weight of a king, `HeuristicAgent.W_KING`. -/
def W_KING : Int := 15

/-- Center-control bonus, `HeuristicAgent.W_CENTER`. -/
def W_CENTER : Int := 1

/-- `HeuristicAgent.evaluate_board` (heuristic_agent.py lines 29-73).  The
board shape `board.shape` is modelled as (n, n); the fold state carries
(score, p1_pieces, p2_pieces) exactly as the Python loop accumulates them. -/
def evaluate_board (n : Nat) (board : Board) : Int :=
  let st :=
    (gridList n).foldl
      (fun (st : Int × Nat × Nat) q =>
        let piece := board q
        if piece = 0 then st
        else
          let is_king : Bool := piece.natAbs == 2
          let value :=
            (if is_king then W_KING else W_MAN) +
              (if (q.1 = 3 ∨ q.1 = 4) ∧ (q.2 = 3 ∨ q.2 = 4) then W_CENTER else 0)
          if piece > 0 then (st.1 + value, st.2.1 + 1, st.2.2)
          else (st.1 - value, st.2.1, st.2.2 + 1))
      (0, 0, 0)
  if st.2.1 = 0 ∧ st.2.2 > 0 then -10000
  else if st.2.2 = 0 ∧ st.2.1 > 0 then 10000
  else st.1

/-- The maximizing loop of `HeuristicAgent.minimax` (lines 154-163): running
state is `max_eval` and the running `alpha`; `f` is the recursive call at
depth - 1.  The `break` on `beta <= alpha` returns the current `max_eval`. -/
def abLoopMax (cfg : Config) (f : Board → F → F → F) (board : Board) (beta : F) :
    List Move → F → F → F
  | [], max_eval, _ => max_eval
  | mv :: rest, max_eval, alpha =>
    let e := f (apply_move cfg board mv 1) alpha beta
    let max_eval' := max max_eval e
    let alpha' := max alpha e
    if beta ≤ alpha' then max_eval' else abLoopMax cfg f board beta rest max_eval' alpha'

/-- The minimizing loop of `HeuristicAgent.minimax` (lines 164-173). -/
def abLoopMin (cfg : Config) (f : Board → F → F → F) (board : Board) (alpha : F) :
    List Move → F → F → F
  | [], min_eval, _ => min_eval
  | mv :: rest, min_eval, beta =>
    let e := f (apply_move cfg board mv (-1)) alpha beta
    let min_eval' := min min_eval e
    let beta' := min beta e
    if beta' ≤ alpha then min_eval' else abLoopMin cfg f board alpha rest min_eval' beta'

/-- `HeuristicAgent.minimax` (heuristic_agent.py lines 130-173): alpha-beta
pruned minimax.  Depth is a natural number (the agent is constructed with a
positive depth, default 3). -/
def minimax (cfg : Config) : Board → Nat → F → F → Int → F
  | board, depth, alpha, beta, current_player_eval =>
    let t := is_terminal cfg board current_player_eval
    if t.1 then
      if t.2 = some 1 then F.val (10000 + (depth : Int))
      else if t.2 = some (-1) then F.val (-10000 - (depth : Int))
      else F.val 0
    else
      match depth with
      | 0 => F.val (evaluate_board cfg.board_size board)
      | d + 1 =>
        let legal_moves := get_legal_moves cfg board current_player_eval
        if legal_moves = [] then
          if current_player_eval = 1 then F.val (-10000) else F.val 10000
        else if current_player_eval = 1 then
          abLoopMax cfg (fun b2 a2 b2' => minimax cfg b2 d a2 b2' (-1)) board beta
            legal_moves F.ninf alpha
        else
          abLoopMin cfg (fun b2 a2 b2' => minimax cfg b2 d a2 b2' 1) board alpha
            legal_moves F.pinf beta

/-- Modelled from the spec: exhaustive minimax to the same depth without any
pruning ("the move and score chosen by alpha-beta pruning equal those from
exhaustive minimax without pruning").  It mirrors `minimax` with the alpha,
beta and early break removed: a maximizing node folds `max` over all
children, a minimizing node folds `min`. -/
def minimax_noprune (cfg : Config) : Board → Nat → Int → F
  | board, depth, current_player_eval =>
    let t := is_terminal cfg board current_player_eval
    if t.1 then
      if t.2 = some 1 then F.val (10000 + (depth : Int))
      else if t.2 = some (-1) then F.val (-10000 - (depth : Int))
      else F.val 0
    else
      match depth with
      | 0 => F.val (evaluate_board cfg.board_size board)
      | d + 1 =>
        let legal_moves := get_legal_moves cfg board current_player_eval
        if legal_moves = [] then
          if current_player_eval = 1 then F.val (-10000) else F.val 10000
        else if current_player_eval = 1 then
          legal_moves.foldl
            (fun acc mv => max acc (minimax_noprune cfg (apply_move cfg board mv 1) d (-1)))
            F.ninf
        else
          legal_moves.foldl
            (fun acc mv => min acc (minimax_noprune cfg (apply_move cfg board mv (-1)) d 1))
            F.pinf

/-- Score assigned to one candidate action by `HeuristicAgent.select_action`
(line 115): alpha-beta minimax on the board after the move, with a full
window, at depth `self.depth - 1`, for the opposing player. -/
def action_score (cfg : Config) (depth : Nat) (board : Board) (player : Int)
    (a : Move) : F :=
  minimax cfg (apply_move cfg board a player) (depth - 1) F.ninf F.pinf (player * -1)

/-- Same score computed by exhaustive minimax without pruning. -/
def action_score_noprune (cfg : Config) (depth : Nat) (board : Board) (player : Int)
    (a : Move) : F :=
  minimax_noprune cfg (apply_move cfg board a player) (depth - 1) (player * -1)

/-- The selection loop of `HeuristicAgent.select_action` (lines 106-127):
state is (best_score, best_action); player 1 updates on strictly greater
score, any other player on strictly smaller score. -/
def selLoop (cfg : Config) (depth : Nat) (board : Board) (player : Int) :
    List Move → F → Move → F × Move
  | [], best_score, best_action => (best_score, best_action)
  | a :: rest, best_score, best_action =>
    let score := action_score cfg depth board player a
    if player = 1 then
      if best_score < score then selLoop cfg depth board player rest score a
      else selLoop cfg depth board player rest best_score best_action
    else
      if score < best_score then selLoop cfg depth board player rest score a
      else selLoop cfg depth board player rest best_score best_action

/-- The selection loop with the unpruned score (spec-side twin of `selLoop`
for the alpha-beta equivalence claim). -/
def selLoop_noprune (cfg : Config) (depth : Nat) (board : Board) (player : Int) :
    List Move → F → Move → F × Move
  | [], best_score, best_action => (best_score, best_action)
  | a :: rest, best_score, best_action =>
    let score := action_score_noprune cfg depth board player a
    if player = 1 then
      if best_score < score then selLoop_noprune cfg depth board player rest score a
      else selLoop_noprune cfg depth board player rest best_score best_action
    else
      if score < best_score then selLoop_noprune cfg depth board player rest score a
      else selLoop_noprune cfg depth board player rest best_score best_action

/-- `HeuristicAgent.select_action` (heuristic_agent.py lines 75-128).  An
empty action list returns `None` (modelled as `none`); a singleton returns
its element; otherwise the loop runs over the whole list, with
`best_action` initialized to `random_choice(legal_actions)`, which is
deterministically the first element (lines 183-185).  Action dictionaries
are modelled by the `Move` they are converted back to by `_dict_to_move`. -/
def select_action (cfg : Config) (depth : Nat) (board : Board)
    (legal_actions : List Move) (player : Int) : Option Move :=
  match legal_actions with
  | [] => none
  | a0 :: rest =>
    if (a0 :: rest).length = 1 then some a0
    else
      let best_score : F := if player = 1 then F.ninf else F.pinf
      some (selLoop cfg depth board player (a0 :: rest) best_score a0).2

/-- Spec-side twin of `select_action` using exhaustive, unpruned minimax. -/
def select_action_noprune (cfg : Config) (depth : Nat) (board : Board)
    (legal_actions : List Move) (player : Int) : Option Move :=
  match legal_actions with
  | [] => none
  | a0 :: rest =>
    if (a0 :: rest).length = 1 then some a0
    else
      let best_score : F := if player = 1 then F.ninf else F.pinf
      some (selLoop_noprune cfg depth board player (a0 :: rest) best_score a0).2

/-- The extreme (maximal for player 1, minimal for player -1) action score
over a candidate list, used to state the tie-breaking claim. -/
def best_action_score (cfg : Config) (depth : Nat) (board : Board)
    (legal_actions : List Move) (player : Int) : F :=
  if player = 1 then (legal_actions.map (action_score cfg depth board player)).foldl max F.ninf
  else (legal_actions.map (action_score cfg depth board player)).foldl min F.pinf

/-- Concrete board used by several claim witnesses: a +1 man on (2, 1) and a
-1 man on (3, 2); the only legal move for +1 is the single jump to (4, 3). -/
def boardSingleCapture : Board := fun q =>
  if q = (2, 1) then 1 else if q = (3, 2) then -1 else 0

/-- The single legal move of +1 on `boardSingleCapture`. -/
def moveSingleCapture : Move := ⟨(2, 1), (4, 3), [(3, 2)], false⟩

/-- Predicate: the n-by-n board carries exactly one cell with value 1,
exactly one cell with value -1, and nothing else (one man each). -/
def one_man_each (n : Nat) (b : Board) : Prop :=
  ((gridList n).filter (fun q => b q = 1)).length = 1 ∧
    ((gridList n).filter (fun q => b q = -1)).length = 1 ∧
    ∀ q ∈ gridList n, b q = 1 ∨ b q = -1 ∨ b q = 0

instance (n b) : Decidable (one_man_each n b) := by
  unfold one_man_each; infer_instance

/-- The center-control region of `evaluate_board`: rows and columns 3, 4. -/
def in_center (q : Int × Int) : Prop := (q.1 = 3 ∨ q.1 = 4) ∧ (q.2 = 3 ∨ q.2 = 4)

instance (q) : Decidable (in_center q) := by unfold in_center; infer_instance

/-- Concrete board: a single player -1 man on the dark square (0, 1); player
+1 has no pieces at all. -/
def boardOnlyBlack : Board := fun q => if q = (0, 1) then -1 else 0

/-- Concrete board: a +1 man on (3, 0), -1 men on (4, 1) and (6, 3).  The
only legal move for +1 is the double jump (3,0) → (5,2) → (7,4) capturing
both men and promoting on the last row. -/
def boardDoubleJump : Board := fun q =>
  if q = (3, 0) then 1 else if q = (4, 1) then -1 else if q = (6, 3) then -1 else 0

/-- The move `get_legal_moves` actually produces on `boardDoubleJump` for
player +1: note `from_pos` is the intermediate square (5, 2), not (3, 0)
where the moving piece stands. -/
def moveDoubleJump : Move := ⟨(5, 2), (7, 4), [(4, 1), (6, 3)], true⟩

/-- Concrete board: a +1 man on (5, 0), -1 men on (6, 1) and (6, 3).  The
man jumps (5,0) → (7,2), promoting mid-sequence, then continues as a king
with the backward jump (7,2) → (5,4). -/
def boardMidPromo : Board := fun q =>
  if q = (5, 0) then 1 else if q = (6, 1) then -1 else if q = (6, 3) then -1 else 0

/-- The move `get_legal_moves` actually produces on `boardMidPromo` for
player +1: the promotion flag is false although the man crossed the last
row mid-sequence. -/
def moveMidPromo : Move := ⟨(7, 2), (5, 4), [(6, 1), (6, 3)], false⟩

/-- Concrete board: one +1 man on the center square (3, 4) and one -1 man on
the non-center square (0, 1). -/
def boardCenterImbalance : Board := fun q =>
  if q = (3, 4) then 1 else if q = (0, 1) then -1 else 0

/-- Score contribution of a single cell in `evaluate_board`. -/
def evalCell (b : Board) (q : Int × Int) : Int :=
  if b q = 0 then 0
  else
    ((if (b q).natAbs == 2 then W_KING else W_MAN) +
        (if (q.1 = 3 ∨ q.1 = 4) ∧ (q.2 = 3 ∨ q.2 = 4) then W_CENTER else 0))
      * (if b q > 0 then 1 else -1)

/-- Concrete board with one man of each color, both outside the center
region: +1 on (2, 1), -1 on (5, 2). -/
def boardTwoMen : Board := fun q =>
  if q = (2, 1) then 1 else if q = (5, 2) then -1 else 0

/-!
Helper lemmas: termination of the capture recursion.  `capturableCount`
drops (or the current square stops holding a capturable piece) at every
recursive call of `generate_captures_recursive`, so `genMeasure` strictly
decreases and any fuel of at least `genMeasure` computes the fixpoint.
-/

theorem flatMap_congr_mem {α β : Type} {l : List α} {f g : α → List β}
    (h : ∀ x ∈ l, f x = g x) : l.flatMap f = l.flatMap g := by
  induction l with
  | nil => rfl
  | cons a t ih =>
    simp only [List.flatMap_cons]
    rw [h a (by simp), ih (fun x hx => h x (List.mem_cons_of_mem a hx))]

theorem capQ_cases (p x : Int) : capQ p x = 0 ∨ capQ p x = 1 := by
  unfold capQ; split <;> simp

theorem capQ_zero (p : Int) : capQ p 0 = 0 := by simp [capQ]

theorem capQ_own {p x : Int} (h : x * p > 0) : capQ p x = 0 := by
  unfold capQ
  rw [if_neg]
  rintro ⟨-, h2⟩
  omega

theorem capQ_capturable {p x : Int} (h1 : x ≠ 0) (h2 : ¬ x * p > 0) : capQ p x = 1 := by
  unfold capQ
  rw [if_pos ⟨h1, by omega⟩]

theorem mem_boardGrid_of_valid {cfg : Config} {r c : Int}
    (h : is_valid_square cfg r c = true) : (r, c) ∈ boardGrid cfg.board_size := by
  unfold is_valid_square at h
  split at h
  · exact absurd h (by simp)
  · rename_i hb
    push_neg at hb
    simp only [boardGrid, Finset.mem_product, Finset.mem_Icc]
    omega

theorem capturableCount_update (cfg : Config) (p : Int) (b : Board) (a : Int × Int)
    (w : Int) (ha : a ∈ boardGrid cfg.board_size) :
    capturableCount cfg (Function.update b a w) p + capQ p (b a)
      = capturableCount cfg b p + capQ p w := by
  unfold capturableCount
  rw [← Finset.sum_erase_add _ _ ha,
    ← Finset.sum_erase_add _ (fun q => capQ p (b q)) ha]
  have hcongr : ∀ q ∈ (boardGrid cfg.board_size).erase a,
      capQ p (Function.update b a w q) = capQ p (b q) := by
    intro q hq
    rw [Function.update_noteq (Finset.ne_of_mem_erase hq)]
  rw [Finset.sum_congr rfl hcongr, Function.update_same]
  omega

theorem capturableCount_update_notmem (cfg : Config) (p : Int) (b : Board)
    (a : Int × Int) (w : Int) (ha : a ∉ boardGrid cfg.board_size) :
    capturableCount cfg (Function.update b a w) p = capturableCount cfg b p := by
  unfold capturableCount
  apply Finset.sum_congr rfl
  intro q hq
  have hne : q ≠ a := by rintro rfl; exact ha hq
  rw [Function.update_noteq hne]

theorem genMeasure_pos (cfg : Config) (b : Board) (r c p : Int) :
    1 ≤ genMeasure cfg b r c p := by
  unfold genMeasure
  split
  · rename_i h
    have h1 : capQ p (b (r, c)) ≤ capturableCount cfg b p := by
      unfold capturableCount
      exact @Finset.single_le_sum (Int × Int) Nat _ (fun q => capQ p (b q))
        (boardGrid cfg.board_size) (fun i _ => Nat.zero_le _) (r, c) h.1
    omega
  · omega

theorem dir_units {pv : Int} {k : Bool} {d : Int × Int}
    (hd : d ∈ get_move_directions pv k) :
    (d.1 = 1 ∨ d.1 = -1) ∧ (d.2 = 1 ∨ d.2 = -1) := by
  unfold get_move_directions at hd
  split at hd
  · simp only [List.mem_cons, List.not_mem_nil, or_false] at hd
    rcases hd with rfl | rfl | rfl | rfl <;> simp
  · split at hd <;>
    · simp only [List.mem_cons, List.not_mem_nil, or_false] at hd
      rcases hd with rfl | rfl <;> simp

theorem genMeasure_decrease (cfg : Config) (b : Board) (row col player : Int)
    (d : Int × Int) (hd1 : d.1 = 1 ∨ d.1 = -1)
    (hjv : is_valid_square cfg (row + d.1) (col + d.2) = true)
    (hj0 : b (row + d.1, col + d.2) ≠ 0)
    (hjp : ¬ b (row + d.1, col + d.2) * player > 0)
    (hlv : is_valid_square cfg (row + d.1 + d.1) (col + d.2 + d.2) = true)
    (hl : b (row + d.1 + d.1, col + d.2 + d.2) = 0)
    (promo : Prop) [Decidable promo] (hpl : promo → player = 1 ∨ player = -1) :
    genMeasure cfg
      (if promo then
        Function.update (Function.update (Function.update
            (Function.update b (row + d.1 + d.1, col + d.2 + d.2) (b (row, col)))
            (row, col) 0) (row + d.1, col + d.2) 0)
          (row + d.1 + d.1, col + d.2 + d.2) (if player = 1 then 2 else -2)
       else
        Function.update (Function.update
            (Function.update b (row + d.1 + d.1, col + d.2 + d.2) (b (row, col)))
            (row, col) 0) (row + d.1, col + d.2) 0)
      (row + d.1 + d.1) (col + d.2 + d.2) player
      < genMeasure cfg b row col player := by
  have hne_rc_land : ((row, col) : Int × Int) ≠ (row + d.1 + d.1, col + d.2 + d.2) := by
    simp only [ne_eq, Prod.mk.injEq, not_and]
    intro h1
    omega
  have hne_jump_rc : ((row + d.1, col + d.2) : Int × Int) ≠ (row, col) := by
    simp only [ne_eq, Prod.mk.injEq, not_and]
    intro h1
    omega
  have hne_jump_land :
      ((row + d.1, col + d.2) : Int × Int) ≠ (row + d.1 + d.1, col + d.2 + d.2) := by
    simp only [ne_eq, Prod.mk.injEq, not_and]
    intro h1
    omega
  have hne_land_jump :
      ((row + d.1 + d.1, col + d.2 + d.2) : Int × Int) ≠ (row + d.1, col + d.2) :=
    Ne.symm hne_jump_land
  set b1 := Function.update b (row + d.1 + d.1, col + d.2 + d.2) (b (row, col))
    with hb1
  set b2 := Function.update b1 (row, col) 0 with hb2
  set b3 := Function.update b2 (row + d.1, col + d.2) 0 with hb3
  have hjm : ((row + d.1, col + d.2) : Int × Int) ∈ boardGrid cfg.board_size :=
    mem_boardGrid_of_valid hjv
  have hlm : ((row + d.1 + d.1, col + d.2 + d.2) : Int × Int) ∈ boardGrid cfg.board_size :=
    mem_boardGrid_of_valid hlv
  have f1 : b1 (row, col) = b (row, col) := by
    rw [hb1, Function.update_noteq hne_rc_land]
  have f2 : b2 (row + d.1, col + d.2) = b (row + d.1, col + d.2) := by
    rw [hb2, Function.update_noteq hne_jump_rc, hb1,
      Function.update_noteq hne_jump_land]
  have f3 : b3 (row + d.1 + d.1, col + d.2 + d.2) = b (row, col) := by
    rw [hb3, Function.update_noteq hne_land_jump, hb2,
      Function.update_noteq (Ne.symm hne_rc_land), hb1, Function.update_same]
  have c1 : capturableCount cfg b1 player
      = capturableCount cfg b player + capQ player (b (row, col)) := by
    have h := capturableCount_update cfg player b
      (row + d.1 + d.1, col + d.2 + d.2) (b (row, col)) hlm
    rw [hl, capQ_zero, ← hb1] at h
    omega
  have c3' : capturableCount cfg b3 player + 1 = capturableCount cfg b2 player := by
    have h := capturableCount_update cfg player b2 (row + d.1, col + d.2) 0 hjm
    rw [f2, capQ_capturable hj0 hjp, capQ_zero, ← hb3] at h
    omega
  unfold genMeasure
  by_cases hp : promo
  · simp only [if_pos hp]
    have hk : capQ player (if player = 1 then (2 : Int) else -2) = 0 := by
      rcases hpl hp with h | h
      · subst h; decide
      · subst h; decide
    have c4 : capturableCount cfg
          (Function.update b3 (row + d.1 + d.1, col + d.2 + d.2)
            (if player = 1 then 2 else -2)) player
          + capQ player (b (row, col)) = capturableCount cfg b3 player := by
      have h := capturableCount_update cfg player b3
        (row + d.1 + d.1, col + d.2 + d.2) (if player = 1 then 2 else -2) hlm
      rw [f3, hk] at h
      omega
    have eL : (if ((row + d.1 + d.1, col + d.2 + d.2) : Int × Int)
          ∈ boardGrid cfg.board_size ∧
          capQ player (Function.update b3 (row + d.1 + d.1, col + d.2 + d.2)
            (if player = 1 then 2 else -2) (row + d.1 + d.1, col + d.2 + d.2)) = 1
        then 0 else 1) = 1 := by
      rw [if_neg]
      rintro ⟨-, h2⟩
      rw [Function.update_same, hk] at h2
      omega
    rw [eL]
    by_cases hrcm : ((row, col) : Int × Int) ∈ boardGrid cfg.board_size
    · have c2 : capturableCount cfg b2 player + capQ player (b (row, col))
          = capturableCount cfg b1 player := by
        have h := capturableCount_update cfg player b1 (row, col) 0 hrcm
        rw [f1, capQ_zero, ← hb2] at h
        omega
      rcases capQ_cases player (b (row, col)) with hc | hc
      · have eR : (if ((row, col) : Int × Int) ∈ boardGrid cfg.board_size ∧
              capQ player (b (row, col)) = 1 then 0 else 1) = 1 := by
          rw [if_neg]
          rintro ⟨-, h2⟩
          omega
        rw [eR]
        omega
      · have eR : (if ((row, col) : Int × Int) ∈ boardGrid cfg.board_size ∧
              capQ player (b (row, col)) = 1 then 0 else 1) = 0 :=
          if_pos ⟨hrcm, hc⟩
        rw [eR]
        omega
    · have c2 : capturableCount cfg b2 player = capturableCount cfg b1 player := by
        rw [hb2]
        exact capturableCount_update_notmem cfg player b1 (row, col) 0 hrcm
      have eR : (if ((row, col) : Int × Int) ∈ boardGrid cfg.board_size ∧
            capQ player (b (row, col)) = 1 then 0 else 1) = 1 := by
        rw [if_neg]
        rintro ⟨h1, -⟩
        exact hrcm h1
      rw [eR]
      omega
  · simp only [if_neg hp]
    have eL : (if ((row + d.1 + d.1, col + d.2 + d.2) : Int × Int)
          ∈ boardGrid cfg.board_size ∧
          capQ player (b3 (row + d.1 + d.1, col + d.2 + d.2)) = 1
        then 0 else 1) = 1 - capQ player (b (row, col)) := by
      rcases capQ_cases player (b (row, col)) with hc | hc
      · rw [if_neg, hc]
        rintro ⟨-, h2⟩
        rw [f3] at h2
        omega
      · rw [if_pos ⟨hlm, by rw [f3]; exact hc⟩, hc]
    rw [eL]
    by_cases hrcm : ((row, col) : Int × Int) ∈ boardGrid cfg.board_size
    · have c2 : capturableCount cfg b2 player + capQ player (b (row, col))
          = capturableCount cfg b1 player := by
        have h := capturableCount_update cfg player b1 (row, col) 0 hrcm
        rw [f1, capQ_zero, ← hb2] at h
        omega
      rcases capQ_cases player (b (row, col)) with hc | hc
      · have eR : (if ((row, col) : Int × Int) ∈ boardGrid cfg.board_size ∧
              capQ player (b (row, col)) = 1 then 0 else 1) = 1 := by
          rw [if_neg]
          rintro ⟨-, h2⟩
          omega
        rw [eR]
        omega
      · have eR : (if ((row, col) : Int × Int) ∈ boardGrid cfg.board_size ∧
              capQ player (b (row, col)) = 1 then 0 else 1) = 0 :=
          if_pos ⟨hrcm, hc⟩
        rw [eR]
        omega
    · have c2 : capturableCount cfg b2 player = capturableCount cfg b1 player := by
        rw [hb2]
        exact capturableCount_update_notmem cfg player b1 (row, col) 0 hrcm
      have eR : (if ((row, col) : Int × Int) ∈ boardGrid cfg.board_size ∧
            capQ player (b (row, col)) = 1 then 0 else 1) = 1 := by
        rw [if_neg]
        rintro ⟨h1, -⟩
        exact hrcm h1
      rw [eR]
      rcases capQ_cases player (b (row, col)) with hc | hc <;> rw [hc] <;> omega

theorem generate_captures_fuel_stable (cfg : Config) :
    ∀ f g b (row col player : Int) acc,
      genMeasure cfg b row col player ≤ f → genMeasure cfg b row col player ≤ g →
      generate_captures_recursive cfg f b row col player acc
        = generate_captures_recursive cfg g b row col player acc := by
  intro f
  induction f with
  | zero =>
    intro g b row col player acc hf _
    exact absurd hf (by have := genMeasure_pos cfg b row col player; omega)
  | succ f ih =>
    intro g b row col player acc hf hg
    obtain ⟨g', rfl⟩ : ∃ g', g = g' + 1 := by
      have := genMeasure_pos cfg b row col player
      exact ⟨g - 1, by omega⟩
    simp only [generate_captures_recursive]
    apply flatMap_congr_mem
    intro d hd
    split
    next => rfl
    next hjvn =>
      split
      next => rfl
      next hjn =>
        split
        next => rfl
        next hlvn =>
          split
          next hln => rfl
          next hln =>
            have hjv2 : is_valid_square cfg (row + d.1) (col + d.2) = true :=
              not_not.mp hjvn
            have hlv2 : is_valid_square cfg (row + d.1 + d.1) (col + d.2 + d.2) = true :=
              not_not.mp hlvn
            have hl2 : b (row + d.1 + d.1, col + d.2 + d.2) = 0 := not_not.mp hln
            have hj1 : b (row + d.1, col + d.2) ≠ 0 := fun h => hjn (Or.inl h)
            have hj2 : ¬ b (row + d.1, col + d.2) * player > 0 := fun h => hjn (Or.inr h)
            have hdec := genMeasure_decrease cfg b row col player d (dir_units hd).1
              hjv2 hj1 hj2 hlv2 hl2
              ((¬ ((b (row, col)).natAbs == 2) = true) ∧
                ((player = 1 ∧ row + d.1 + d.1 = (cfg.board_size : Int) - 1) ∨
                  (player = -1 ∧ row + d.1 + d.1 = 0)))
              (fun hpp => hpp.2.elim (fun h2 => Or.inl h2.1) (fun h2 => Or.inr h2.1))
            rw [ih g'
              (if (¬ ((b (row, col)).natAbs == 2) = true) ∧
                  ((player = 1 ∧ row + d.1 + d.1 = (cfg.board_size : Int) - 1) ∨
                    (player = -1 ∧ row + d.1 + d.1 = 0)) then
                Function.update (Function.update (Function.update
                    (Function.update b (row + d.1 + d.1, col + d.2 + d.2) (b (row, col)))
                    (row, col) 0) (row + d.1, col + d.2) 0)
                  (row + d.1 + d.1, col + d.2 + d.2) (if player = 1 then 2 else -2)
               else
                Function.update (Function.update
                    (Function.update b (row + d.1 + d.1, col + d.2 + d.2) (b (row, col)))
                    (row, col) 0) (row + d.1, col + d.2) 0)
              (row + d.1 + d.1) (col + d.2 + d.2) player
              (acc ++ [(row + d.1, col + d.2)])
              (by omega) (by omega)]

theorem jump_points_distinct {row col : Int} {d : Int × Int}
    (hd1 : d.1 = 1 ∨ d.1 = -1) :
    ((row, col) : Int × Int) ≠ (row + d.1, col + d.2) ∧
      ((row, col) : Int × Int) ≠ (row + d.1 + d.1, col + d.2 + d.2) ∧
      ((row + d.1, col + d.2) : Int × Int) ≠ (row + d.1 + d.1, col + d.2 + d.2) := by
  refine ⟨?_, ?_, ?_⟩ <;>
    (simp only [ne_eq, Prod.mk.injEq, not_and]; intro h1; omega)

theorem mem_ite_or {α : Type} {c : Prop} [Decidable c] {A B : List α} {m : α}
    (hm : m ∈ if c then A else B) : (c ∧ m ∈ A) ∨ (¬ c ∧ m ∈ B) := by
  by_cases h : c
  · exact Or.inl ⟨h, by rwa [if_pos h] at hm⟩
  · exact Or.inr ⟨h, by rwa [if_neg h] at hm⟩

theorem generate_captures_extends (cfg : Config) :
    ∀ f b (row col player : Int) acc m,
      m ∈ generate_captures_recursive cfg f b row col player acc →
      ∃ rest, rest ≠ [] ∧ m.captures = acc ++ rest := by
  intro f
  induction f with
  | zero =>
    intro b row col player acc m hm
    simp only [generate_captures_recursive, List.not_mem_nil] at hm
  | succ f ih =>
    intro b row col player acc m hm
    simp only [generate_captures_recursive] at hm
    rw [List.mem_flatMap] at hm
    obtain ⟨d, hd, hm⟩ := hm
    rcases mem_ite_or hm with ⟨-, hm⟩ | ⟨-, hm⟩
    · simp at hm
    rcases mem_ite_or hm with ⟨-, hm⟩ | ⟨-, hm⟩
    · simp at hm
    rcases mem_ite_or hm with ⟨-, hm⟩ | ⟨-, hm⟩
    · simp at hm
    rcases mem_ite_or hm with ⟨-, hm⟩ | ⟨-, hm⟩
    · simp at hm
    rcases mem_ite_or hm with ⟨-, hm⟩ | ⟨-, hm⟩
    · obtain ⟨rest', hne', hcap'⟩ := ih _ _ _ _ _ _ hm
      refine ⟨(row + d.1, col + d.2) :: rest', by simp, ?_⟩
      rw [hcap', List.append_assoc]
      rfl
    · simp only [List.mem_singleton] at hm
      subst hm
      exact ⟨[(row + d.1, col + d.2)], by simp, rfl⟩

theorem generate_captures_sound (cfg : Config) :
    ∀ f b (row col player : Int) acc,
      (player = 1 ∨ player = -1) → b (row, col) * player > 0 →
      ∀ m ∈ generate_captures_recursive cfg f b row col player acc,
      ∃ rest, m.captures = acc ++ rest ∧ rest.Nodup ∧
        ∀ q ∈ rest, b q * player < 0 := by
  intro f
  induction f with
  | zero =>
    intro b row col player acc _ _ m hm
    simp only [generate_captures_recursive, List.not_mem_nil] at hm
  | succ f ih =>
    intro b row col player acc hp hown m hm
    simp only [generate_captures_recursive] at hm
    rw [List.mem_flatMap] at hm
    obtain ⟨d, hd, hm⟩ := hm
    rcases mem_ite_or hm with ⟨-, hm⟩ | ⟨-, hm⟩
    · simp at hm
    rcases mem_ite_or hm with ⟨-, hm⟩ | ⟨hjn, hm⟩
    · simp at hm
    rcases mem_ite_or hm with ⟨-, hm⟩ | ⟨-, hm⟩
    · simp at hm
    rcases mem_ite_or hm with ⟨-, hm⟩ | ⟨-, hm⟩
    · simp at hm
    have hj1 : b (row + d.1, col + d.2) ≠ 0 := fun h => hjn (Or.inl h)
    have hj2 : ¬ b (row + d.1, col + d.2) * player > 0 := fun h => hjn (Or.inr h)
    have hxopp : b (row + d.1, col + d.2) * player < 0 := by
      have hne : b (row + d.1, col + d.2) * player ≠ 0 :=
        mul_ne_zero hj1 (by rcases hp with h | h <;> omega)
      omega
    obtain ⟨hne_rc_x, hne_rc_land, hne_x_land⟩ :=
      @jump_points_distinct row col d (dir_units hd).1
    have key : ∀ b4 : Board, b4 (row + d.1, col + d.2) = 0 →
        b4 (row + d.1 + d.1, col + d.2 + d.2) * player > 0 →
        (∀ q : Int × Int, q ≠ (row, col) → q ≠ (row + d.1, col + d.2) →
          q ≠ (row + d.1 + d.1, col + d.2 + d.2) → b4 q = b q) →
        b4 (row, col) = 0 →
        m ∈ generate_captures_recursive cfg f b4 (row + d.1 + d.1)
          (col + d.2 + d.2) player (acc ++ [(row + d.1, col + d.2)]) →
        ∃ rest, m.captures = acc ++ rest ∧ rest.Nodup ∧
          ∀ q ∈ rest, b q * player < 0 := by
      intro b4 hx0 hland_own hrest hrc0 hm4
      obtain ⟨rest', hcap', hnd', hopp'⟩ := ih b4 _ _ player _ hp hland_own m hm4
      refine ⟨(row + d.1, col + d.2) :: rest', ?_, ?_, ?_⟩
      · rw [hcap', List.append_assoc]
        rfl
      · refine List.Nodup.cons ?_ hnd'
        intro hmem
        have hq4 := hopp' _ hmem
        rw [hx0] at hq4
        omega
      · intro q hq
        rcases List.mem_cons.mp hq with rfl | hq'
        · exact hxopp
        · have hq4 := hopp' q hq'
          have hqne1 : q ≠ (row, col) := by
            rintro rfl
            rw [hrc0] at hq4
            omega
          have hqne2 : q ≠ (row + d.1, col + d.2) := by
            rintro rfl
            rw [hx0] at hq4
            omega
          have hqne3 : q ≠ (row + d.1 + d.1, col + d.2 + d.2) := by
            rintro rfl
            omega
          rw [hrest q hqne1 hqne2 hqne3] at hq4
          exact hq4
    have single_case : m = (⟨(row, col), (row + d.1 + d.1, col + d.2 + d.2),
        acc ++ [(row + d.1, col + d.2)],
        decide (((¬ ((b (row, col)).natAbs == 2) = true) ∧
            ((player = 1 ∧ row + d.1 + d.1 = (cfg.board_size : Int) - 1) ∨
              (player = -1 ∧ row + d.1 + d.1 = 0))) ∨
          (acc.length = 0 ∧ (¬ ((b (row, col)).natAbs == 2) = true) ∧
            ((player = 1 ∧ row + d.1 + d.1 = (cfg.board_size : Int) - 1) ∨
              (player = -1 ∧ row + d.1 + d.1 = 0))))⟩ : Move) →
        ∃ rest, m.captures = acc ++ rest ∧ rest.Nodup ∧
          ∀ q ∈ rest, b q * player < 0 := by
      rintro rfl
      exact ⟨[(row + d.1, col + d.2)], rfl, List.nodup_singleton _,
        fun q hq => by
          rw [List.mem_singleton] at hq
          subst hq
          exact hxopp⟩
    by_cases hpp : (¬ ((b (row, col)).natAbs == 2) = true) ∧
        ((player = 1 ∧ row + d.1 + d.1 = (cfg.board_size : Int) - 1) ∨
          (player = -1 ∧ row + d.1 + d.1 = 0))
    · rw [if_pos hpp] at hm
      rcases mem_ite_or hm with ⟨-, hm⟩ | ⟨-, hm⟩
      · refine key _ ?_ ?_ ?_ ?_ hm
        · rw [Function.update_noteq hne_x_land, Function.update_same]
        · rw [Function.update_same]
          rcases hpp.2 with ⟨h1, -⟩ | ⟨h1, -⟩ <;> subst h1 <;> decide
        · intro q h1 h2 h3
          rw [Function.update_noteq h3, Function.update_noteq h2,
            Function.update_noteq h1, Function.update_noteq h3]
        · rw [Function.update_noteq hne_rc_land,
            Function.update_noteq hne_rc_x, Function.update_same]
      · simp only [List.mem_singleton] at hm
        exact single_case hm
    · rw [if_neg hpp] at hm
      rcases mem_ite_or hm with ⟨-, hm⟩ | ⟨-, hm⟩
      · refine key _ ?_ ?_ ?_ ?_ hm
        · rw [Function.update_same]
        · rw [Function.update_noteq (Ne.symm hne_x_land),
            Function.update_noteq (Ne.symm hne_rc_land), Function.update_same]
          exact hown
        · intro q h1 h2 h3
          rw [Function.update_noteq h2, Function.update_noteq h1,
            Function.update_noteq h3]
        · rw [Function.update_noteq hne_rc_x, Function.update_same]
      · simp only [List.mem_singleton] at hm
        exact single_case hm

theorem get_simple_moves_captures (cfg : Config) (b : Board) (row col player : Int) :
    ∀ m ∈ get_simple_moves cfg b row col player, m.captures = [] := by
  intro m hm
  simp only [get_simple_moves] at hm
  rw [List.mem_flatMap] at hm
  obtain ⟨d, -, hm⟩ := hm
  rcases mem_ite_or hm with ⟨-, hm⟩ | ⟨-, hm⟩
  · simp at hm
  rcases mem_ite_or hm with ⟨-, hm⟩ | ⟨-, hm⟩
  · rw [List.mem_singleton] at hm
    subst hm
    rfl
  · simp at hm

theorem simpleMovesOf_captures (cfg : Config) (b : Board) (player : Int) :
    ∀ m ∈ simpleMovesOf cfg b player, m.captures = [] := by
  intro m hm
  simp only [simpleMovesOf] at hm
  rw [List.mem_flatMap] at hm
  obtain ⟨q, -, hm⟩ := hm
  rcases mem_ite_or hm with ⟨-, hm⟩ | ⟨-, hm⟩
  · exact get_simple_moves_captures cfg b q.1 q.2 player m hm
  · simp at hm

theorem captureMovesOf_spec (cfg : Config) (b : Board) (player : Int) :
    ∀ m ∈ captureMovesOf cfg b player,
      m.captures ≠ [] ∧
        ((player = 1 ∨ player = -1) →
          m.captures.Nodup ∧ ∀ q ∈ m.captures, b q * player < 0) := by
  intro m hm
  simp only [captureMovesOf] at hm
  rw [List.mem_flatMap] at hm
  obtain ⟨q, -, hm⟩ := hm
  rcases mem_ite_or hm with ⟨hown, hm⟩ | ⟨-, hm⟩
  swap
  · simp at hm
  simp only [get_capture_moves] at hm
  constructor
  · obtain ⟨rest, hne, hcap⟩ := generate_captures_extends cfg _ _ _ _ _ _ _ hm
    rw [hcap]
    simpa using hne
  · intro hp
    have hq : b (q.1, q.2) * player > 0 := by
      obtain ⟨-, hnz, hsign⟩ := hown
      rw [Prod.mk.eta]
      rcases hsign with ⟨h1, h2⟩ | ⟨h1, h2⟩ <;> subst h1 <;> omega
    obtain ⟨rest, hcap, hnd, hopp⟩ :=
      generate_captures_sound cfg _ _ _ _ _ _ hp hq m hm
    rw [List.nil_append] at hcap
    rw [hcap]
    exact ⟨hnd, hopp⟩

theorem get_legal_moves_cases (cfg : Config) (b : Board) (player : Int) :
    ∀ m ∈ get_legal_moves cfg b player,
      m ∈ captureMovesOf cfg b player ∨ m ∈ simpleMovesOf cfg b player := by
  intro m hm
  simp only [get_legal_moves] at hm
  rcases mem_ite_or hm with ⟨-, hm⟩ | ⟨-, hm⟩
  · rcases mem_ite_or hm with ⟨-, hm⟩ | ⟨-, hm⟩
    · exact Or.inl (List.mem_of_mem_filter hm)
    · exact Or.inl hm
  · exact Or.inr hm

theorem le_foldr_max (l : List Nat) : ∀ x ∈ l, x ≤ l.foldr max 0 := by
  induction l with
  | nil => simp
  | cons a t ih =>
    intro x hx
    rcases List.mem_cons.mp hx with rfl | hx
    · exact le_max_left _ _
    · exact le_trans (ih x hx) (le_max_right _ _)


theorem eval_fold (b : Board) (l : List (Int × Int)) :
    ∀ (s : Int) (c1 c2 : Nat),
      List.foldl
        (fun (st : Int × Nat × Nat) q =>
          let piece := b q
          if piece = 0 then st
          else
            let is_king : Bool := piece.natAbs == 2
            let value :=
              (if is_king then W_KING else W_MAN) +
                (if (q.1 = 3 ∨ q.1 = 4) ∧ (q.2 = 3 ∨ q.2 = 4) then W_CENTER else 0)
            if piece > 0 then (st.1 + value, st.2.1 + 1, st.2.2)
            else (st.1 - value, st.2.1, st.2.2 + 1))
        (s, c1, c2) l
      = (s + (l.map (evalCell b)).sum,
          c1 + l.countP (fun q => decide (b q > 0)),
          c2 + l.countP (fun q => decide (b q < 0))) := by
  induction l with
  | nil =>
    intro s c1 c2
    simp
  | cons q t ih =>
    intro s c1 c2
    rw [List.foldl_cons]
    dsimp only
    by_cases h0 : b q = 0
    · rw [if_pos h0, ih]
      simp only [List.map_cons, List.sum_cons, List.countP_cons, evalCell, h0,
        Prod.mk.injEq]
      norm_num
    · rw [if_neg h0]
      by_cases hpos : b q > 0
      · rw [if_pos hpos, ih]
        simp only [List.map_cons, List.sum_cons, List.countP_cons, Prod.mk.injEq]
        refine ⟨?_, ?_, ?_⟩
        · unfold evalCell
          rw [if_neg h0, if_pos hpos]
          ring
        · simp [hpos] <;> omega
        · have hd : decide (b q < 0) = false := by
            simp only [decide_eq_false_iff_not]
            omega
          simp [hd] <;> omega
      · have hneg : b q < 0 := by omega
        rw [if_neg hpos, ih]
        simp only [List.map_cons, List.sum_cons, List.countP_cons, Prod.mk.injEq]
        refine ⟨?_, ?_, ?_⟩
        · unfold evalCell
          rw [if_neg h0, if_neg hpos]
          ring
        · have hd : decide (b q > 0) = false := by
            simp only [decide_eq_false_iff_not]
            omega
          simp [hd] <;> omega
        · simp [hneg] <;> omega

theorem evaluate_board_sum (n : Nat) (b : Board) :
    evaluate_board n b =
      (if (gridList n).countP (fun q => decide (b q > 0)) = 0 ∧
          0 < (gridList n).countP (fun q => decide (b q < 0)) then -10000
       else if (gridList n).countP (fun q => decide (b q < 0)) = 0 ∧
          0 < (gridList n).countP (fun q => decide (b q > 0)) then 10000
       else ((gridList n).map (evalCell b)).sum) := by
  unfold evaluate_board
  rw [eval_fold]
  simp only [Nat.zero_add, zero_add]

theorem gridList_nodup (n : Nat) : (gridList n).Nodup := by
  unfold gridList
  rw [List.nodup_flatMap]
  constructor
  · intro r hr
    have hinj : Function.Injective (fun c : Nat => ((r : Int), (c : Int))) := by
      intro a b hab
      simpa using hab
    exact @List.Nodup.map _ _ (List.range n) _ hinj (List.nodup_range n)
  · have hpw : (List.range n).Pairwise (· < ·) := List.pairwise_lt_range n
    refine hpw.imp ?_
    intro a b hab x hxa hxb
    simp only [List.mem_map, List.mem_range] at hxa hxb
    obtain ⟨c1, -, rfl⟩ := hxa
    obtain ⟨c2, -, heq⟩ := hxb
    have h1 := congrArg Prod.fst heq
    simp only at h1
    omega

theorem sum_one_point (f : Int × Int → Int) :
    ∀ (l : List (Int × Int)), l.Nodup → ∀ q1 ∈ l,
      (∀ q ∈ l, q ≠ q1 → f q = 0) → (l.map f).sum = f q1 := by
  intro l
  induction l with
  | nil =>
    intro _ q1 h1
    simp at h1
  | cons a t ih =>
    intro hnd q1 h1 hz
    rcases List.mem_cons.mp h1 with rfl | hmem
    · simp only [List.map_cons, List.sum_cons]
      have hzt : (t.map f).sum = 0 := by
        apply List.sum_eq_zero
        intro x hx
        obtain ⟨q, hq, rfl⟩ := List.mem_map.mp hx
        refine hz q (List.mem_cons_of_mem _ hq) ?_
        rintro rfl
        exact (List.nodup_cons.mp hnd).1 hq
      rw [hzt, add_zero]
    · have ha0 : f a = 0 := by
        refine hz a (List.mem_cons_self a t) ?_
        rintro rfl
        exact (List.nodup_cons.mp hnd).1 hmem
      simp only [List.map_cons, List.sum_cons, ha0, zero_add]
      exact ih (List.nodup_cons.mp hnd).2 q1 hmem
        (fun q hq hne => hz q (List.mem_cons_of_mem _ hq) hne)

theorem sum_two_points (f : Int × Int → Int) :
    ∀ (l : List (Int × Int)), l.Nodup → ∀ q1 ∈ l, ∀ q2 ∈ l, q1 ≠ q2 →
      (∀ q ∈ l, q ≠ q1 → q ≠ q2 → f q = 0) → (l.map f).sum = f q1 + f q2 := by
  intro l
  induction l with
  | nil =>
    intro _ q1 h1
    simp at h1
  | cons a t ih =>
    intro hnd q1 h1 q2 h2 hne hz
    obtain ⟨hanotin, hndt⟩ := List.nodup_cons.mp hnd
    rcases List.mem_cons.mp h1 with rfl | hmem1
    · have h2t : q2 ∈ t := by
        rcases List.mem_cons.mp h2 with rfl | hmem2
        · exact absurd rfl hne
        · exact hmem2
      simp only [List.map_cons, List.sum_cons]
      rw [sum_one_point f t hndt q2 h2t]
      intro q hq hneq
      refine hz q (List.mem_cons_of_mem _ hq) ?_ hneq
      rintro rfl
      exact hanotin hq
    · rcases List.mem_cons.mp h2 with rfl | hmem2
      · simp only [List.map_cons, List.sum_cons]
        rw [sum_one_point f t hndt q1 hmem1]
        · ring
        · intro q hq hneq
          refine hz q (List.mem_cons_of_mem _ hq) hneq ?_
          rintro rfl
          exact hanotin hq
      · have ha0 : f a = 0 := by
          refine hz a (List.mem_cons_self a t) ?_ ?_
          · rintro rfl
            exact hanotin hmem1
          · rintro rfl
            exact hanotin hmem2
        simp only [List.map_cons, List.sum_cons, ha0, zero_add]
        exact ih hndt q1 hmem1 q2 hmem2 hne
          (fun q hq => hz q (List.mem_cons_of_mem _ hq))


theorem F.ninf_le (a : F) : F.ninf ≤ a := by
  show F.le F.ninf a
  cases a <;> trivial

theorem F.le_pinf (a : F) : a ≤ F.pinf := by
  show F.le a F.pinf
  cases a <;> trivial

theorem F.ninf_lt_val (q : Int) : F.ninf < F.val q :=
  lt_of_le_of_ne (F.ninf_le _) (fun h => F.noConfusion h)

theorem F.val_lt_pinf (q : Int) : F.val q < F.pinf :=
  lt_of_le_of_ne (F.le_pinf _) (fun h => F.noConfusion h)

theorem F.val_of_bounds {x : F} (h1 : F.ninf < x) (h2 : x < F.pinf) :
    ∃ q, x = F.val q := by
  cases x with
  | ninf => exact absurd h1 (lt_irrefl _)
  | val q => exact ⟨q, rfl⟩
  | pinf => exact absurd h2 (lt_irrefl _)

theorem foldl_max_split {α : Type} (v : α → F) (l : List α) :
    ∀ s : F, l.foldl (fun a x => max a (v x)) s
      = max s (l.foldl (fun a x => max a (v x)) F.ninf) := by
  induction l with
  | nil =>
    intro s
    rw [List.foldl_nil, List.foldl_nil, max_eq_left (F.ninf_le s)]
  | cons x t ih =>
    intro s
    rw [List.foldl_cons, List.foldl_cons, ih (max s (v x)), ih (max F.ninf (v x)),
      max_eq_right (F.ninf_le (v x)), max_assoc]

theorem le_foldl_max {α : Type} (v : α → F) (l : List α) (s : F) :
    s ≤ l.foldl (fun a x => max a (v x)) s := by
  rw [foldl_max_split]
  exact le_max_left _ _

theorem foldl_max_mono {α : Type} (v : α → F) (l : List α) {s t : F} (h : s ≤ t) :
    l.foldl (fun a x => max a (v x)) s ≤ l.foldl (fun a x => max a (v x)) t := by
  rw [foldl_max_split, foldl_max_split v l t]
  exact max_le_max h le_rfl

theorem elem_le_foldl_max {α : Type} (v : α → F) (l : List α) :
    ∀ (s : F), ∀ x ∈ l, v x ≤ l.foldl (fun a x => max a (v x)) s := by
  induction l with
  | nil =>
    intro s x hx
    simp at hx
  | cons y t ih =>
    intro s x hx
    rw [List.foldl_cons]
    rcases List.mem_cons.mp hx with rfl | hx
    · exact le_trans (le_max_right s (v x)) (le_foldl_max v t _)
    · exact ih (max s (v y)) x hx

theorem foldl_max_lt_pinf {α : Type} (v : α → F) (l : List α) :
    ∀ (s : F), s < F.pinf → (∀ x ∈ l, v x < F.pinf) →
      l.foldl (fun a x => max a (v x)) s < F.pinf := by
  induction l with
  | nil =>
    intro s hs _
    exact hs
  | cons y t ih =>
    intro s hs hv
    rw [List.foldl_cons]
    exact ih (max s (v y)) (max_lt hs (hv y (List.mem_cons_self y t)))
      (fun x hx => hv x (List.mem_cons_of_mem y hx))

theorem foldl_min_split {α : Type} (v : α → F) (l : List α) :
    ∀ s : F, l.foldl (fun a x => min a (v x)) s
      = min s (l.foldl (fun a x => min a (v x)) F.pinf) := by
  induction l with
  | nil =>
    intro s
    rw [List.foldl_nil, List.foldl_nil, min_eq_left (F.le_pinf s)]
  | cons x t ih =>
    intro s
    rw [List.foldl_cons, List.foldl_cons, ih (min s (v x)), ih (min F.pinf (v x)),
      min_eq_right (F.le_pinf (v x)), min_assoc]

theorem foldl_min_le {α : Type} (v : α → F) (l : List α) (s : F) :
    l.foldl (fun a x => min a (v x)) s ≤ s := by
  rw [foldl_min_split]
  exact min_le_left _ _

theorem foldl_min_mono {α : Type} (v : α → F) (l : List α) {s t : F} (h : s ≤ t) :
    l.foldl (fun a x => min a (v x)) s ≤ l.foldl (fun a x => min a (v x)) t := by
  rw [foldl_min_split, foldl_min_split v l t]
  exact min_le_min h le_rfl

theorem foldl_min_le_elem {α : Type} (v : α → F) (l : List α) :
    ∀ (s : F), ∀ x ∈ l, l.foldl (fun a x => min a (v x)) s ≤ v x := by
  induction l with
  | nil =>
    intro s x hx
    simp at hx
  | cons y t ih =>
    intro s x hx
    rw [List.foldl_cons]
    rcases List.mem_cons.mp hx with rfl | hx
    · exact le_trans (foldl_min_le v t _) (min_le_right s (v x))
    · exact ih (min s (v y)) x hx

theorem foldl_min_gt_ninf {α : Type} (v : α → F) (l : List α) :
    ∀ (s : F), F.ninf < s → (∀ x ∈ l, F.ninf < v x) →
      F.ninf < l.foldl (fun a x => min a (v x)) s := by
  induction l with
  | nil =>
    intro s hs _
    exact hs
  | cons y t ih =>
    intro s hs hv
    rw [List.foldl_cons]
    exact ih (min s (v y)) (lt_min hs (hv y (List.mem_cons_self y t)))
      (fun x hx => hv x (List.mem_cons_of_mem y hx))

theorem minimax_noprune_val (cfg : Config) :
    ∀ (d : Nat) (b : Board) (p : Int), ∃ q, minimax_noprune cfg b d p = F.val q := by
  intro d
  induction d with
  | zero =>
    intro b p
    rw [minimax_noprune]
    split
    · split
      · exact ⟨_, rfl⟩
      · split
        · exact ⟨_, rfl⟩
        · exact ⟨_, rfl⟩
    · exact ⟨_, rfl⟩
  | succ d ih =>
    intro b p
    rw [minimax_noprune]
    split
    · split
      · exact ⟨_, rfl⟩
      · split
        · exact ⟨_, rfl⟩
        · exact ⟨_, rfl⟩
    · dsimp only
      split
      next hemp =>
        split
        · exact ⟨_, rfl⟩
        · exact ⟨_, rfl⟩
      next hemp =>
        split
        next =>
          -- maximizing fold over a nonempty list of finite child values
          obtain ⟨mv, hmv⟩ := List.exists_mem_of_ne_nil _ hemp
          have hval : ∀ x ∈ get_legal_moves cfg b p,
              ∃ q, minimax_noprune cfg (apply_move cfg b x 1) d (-1) = F.val q :=
            fun x _ => ih (apply_move cfg b x 1) (-1)
          apply F.val_of_bounds
          · obtain ⟨q, hq⟩ := hval mv hmv
            have h1 : F.val q ≤ (get_legal_moves cfg b p).foldl
                (fun acc mv => max acc (minimax_noprune cfg (apply_move cfg b mv 1) d (-1)))
                F.ninf := by
              rw [← hq]
              exact elem_le_foldl_max
                (fun mv => minimax_noprune cfg (apply_move cfg b mv 1) d (-1))
                (get_legal_moves cfg b p) F.ninf mv hmv
            exact lt_of_lt_of_le (F.ninf_lt_val q) h1
          · apply foldl_max_lt_pinf
            · exact lt_of_le_of_ne (F.le_pinf _) (fun h => F.noConfusion h)
            · intro x hx
              obtain ⟨q, hq⟩ := hval x hx
              rw [hq]
              exact F.val_lt_pinf q
        next =>
          obtain ⟨mv, hmv⟩ := List.exists_mem_of_ne_nil _ hemp
          have hval : ∀ x ∈ get_legal_moves cfg b p,
              ∃ q, minimax_noprune cfg (apply_move cfg b x (-1)) d 1 = F.val q :=
            fun x _ => ih (apply_move cfg b x (-1)) 1
          apply F.val_of_bounds
          · apply foldl_min_gt_ninf
            · exact lt_of_le_of_ne (F.ninf_le _) (fun h => F.noConfusion h.symm)
            · intro x hx
              obtain ⟨q, hq⟩ := hval x hx
              rw [hq]
              exact F.ninf_lt_val q
          · obtain ⟨q, hq⟩ := hval mv hmv
            have h1 : (get_legal_moves cfg b p).foldl
                (fun acc mv => min acc (minimax_noprune cfg (apply_move cfg b mv (-1)) d 1))
                F.pinf ≤ F.val q := by
              rw [← hq]
              exact foldl_min_le_elem
                (fun mv => minimax_noprune cfg (apply_move cfg b mv (-1)) d 1)
                (get_legal_moves cfg b p) F.pinf mv hmv
            exact lt_of_le_of_lt h1 (F.val_lt_pinf q)

theorem abLoopMax_spec (cfg : Config) (f_ab : Board → F → F → F) (f_pl : Board → F)
    (hchild : ∀ b2 α2 β2, α2 < β2 →
      (α2 < f_pl b2 → f_pl b2 < β2 → f_ab b2 α2 β2 = f_pl b2) ∧
        (f_pl b2 ≤ α2 → f_pl b2 ≤ f_ab b2 α2 β2 ∧ f_ab b2 α2 β2 ≤ α2) ∧
        (β2 ≤ f_pl b2 → β2 ≤ f_ab b2 α2 β2 ∧ f_ab b2 α2 β2 ≤ f_pl b2))
    (b : Board) (β : F) :
    ∀ (ms : List Move) (m α : F), max α m < β →
      m ≤ abLoopMax cfg f_ab b β ms m (max α m) ∧
        abLoopMax cfg f_ab b β ms m (max α m)
          ≤ max (max α m)
              (ms.foldl (fun acc mv => max acc (f_pl (apply_move cfg b mv 1))) m) ∧
        (β ≤ abLoopMax cfg f_ab b β ms m (max α m) ∨
          ms.foldl (fun acc mv => max acc (f_pl (apply_move cfg b mv 1))) m
            ≤ abLoopMax cfg f_ab b β ms m (max α m)) := by
  intro ms
  induction ms with
  | nil =>
    intro m α h
    simp only [abLoopMax, List.foldl_nil]
    exact ⟨le_rfl, le_max_right _ _, Or.inr le_rfl⟩
  | cons mv rest ih =>
    intro m α h
    simp only [abLoopMax, List.foldl_cons]
    set e := f_ab (apply_move cfg b mv 1) (max α m) β with he
    set v1 := f_pl (apply_move cfg b mv 1) with hv1
    have hch := hchild (apply_move cfg b mv 1) (max α m) β h
    rw [← he, ← hv1] at hch
    by_cases hbr : β ≤ max (max α m) e
    · simp only [if_pos hbr]
      have hβe : β ≤ e := by
        rcases le_max_iff.mp hbr with h1 | h1
        · exact absurd h1 (not_le.mpr h)
        · exact h1
      have hβv1 : β ≤ v1 := by
        by_contra hcon
        push_neg at hcon
        rcases le_or_lt v1 (max α m) with hv | hv
        · exact absurd (le_trans hβe (hch.2.1 hv).2) (not_le.mpr h)
        · rw [hch.1 hv hcon] at hβe
          exact absurd hβe (not_le.mpr hcon)
      have hev1 : e ≤ v1 := (hch.2.2 hβv1).2
      refine ⟨le_max_left _ _, ?_, Or.inl (le_trans hβe (le_max_right m e))⟩
      have h1 : max m e ≤ max m v1 := max_le_max le_rfl hev1
      have h2 : max m v1 ≤ rest.foldl
          (fun acc mv => max acc (f_pl (apply_move cfg b mv 1))) (max m v1) :=
        le_foldl_max _ _ _
      exact le_trans (le_trans h1 h2) (le_max_right _ _)
    · simp only [if_neg hbr]
      have ha' : max (max α m) e = max α (max m e) := max_assoc α m e
      rw [ha']
      have h' : max α (max m e) < β := by
        rw [← ha']
        exact not_le.mp hbr
      obtain ⟨ih1, ih2, ih3⟩ := ih (max m e) α h'
      by_cases hv1β : β ≤ v1
      · exact absurd (le_trans (hch.2.2 hv1β).1 (le_max_right (max α m) e)) hbr
      · push_neg at hv1β
        rcases le_or_lt v1 (max α m) with hvle | hvgt
        · obtain ⟨hv1e, hea⟩ := hch.2.1 hvle
          have hαm : max α (max m e) = max α m := by
            rw [← max_assoc, max_eq_left hea]
          rw [hαm] at ih1 ih2 ih3 ⊢
          refine ⟨le_trans (le_max_left m e) ih1, ?_, ?_⟩
          · have hw' : rest.foldl
                (fun acc mv => max acc (f_pl (apply_move cfg b mv 1))) (max m e)
                ≤ max (max α m) (rest.foldl
                  (fun acc mv => max acc (f_pl (apply_move cfg b mv 1))) (max m v1)) := by
              rw [foldl_max_split _ rest (max m e), foldl_max_split _ rest (max m v1)]
              have hseed : max m e ≤ max (max α m) (max m v1) :=
                max_le (le_trans (le_max_left m v1) (le_max_right _ _))
                  (le_trans hea (le_max_left _ _))
              exact max_le (le_trans hseed (max_le_max le_rfl (le_max_left _ _)))
                (le_trans (le_max_right (max m v1) _) (le_max_right _ _))
            exact le_trans ih2 (max_le (le_max_left _ _) hw')
          · rcases ih3 with h3 | h3
            · exact Or.inl h3
            · exact Or.inr
                (le_trans (foldl_max_mono _ rest (max_le_max le_rfl hv1e)) h3)
        · have he_eq : e = v1 := hch.1 hvgt hv1β
          rw [he_eq] at ih1 ih2 ih3 ⊢
          refine ⟨le_trans (le_max_left m v1) ih1, ?_, ih3⟩
          have hv1w : v1 ≤ rest.foldl
              (fun acc mv => max acc (f_pl (apply_move cfg b mv 1))) (max m v1) :=
            le_trans (le_max_right m v1) (le_foldl_max _ _ _)
          have hbound : max α (max m v1) ≤ max (max α m)
              (rest.foldl (fun acc mv => max acc (f_pl (apply_move cfg b mv 1)))
                (max m v1)) := by
            rw [← max_assoc]
            exact max_le (le_max_left _ _) (le_trans hv1w (le_max_right _ _))
          exact le_trans ih2 (max_le hbound (le_max_right _ _))

theorem abLoopMin_spec (cfg : Config) (f_ab : Board → F → F → F) (f_pl : Board → F)
    (hchild : ∀ b2 α2 β2, α2 < β2 →
      (α2 < f_pl b2 → f_pl b2 < β2 → f_ab b2 α2 β2 = f_pl b2) ∧
        (f_pl b2 ≤ α2 → f_pl b2 ≤ f_ab b2 α2 β2 ∧ f_ab b2 α2 β2 ≤ α2) ∧
        (β2 ≤ f_pl b2 → β2 ≤ f_ab b2 α2 β2 ∧ f_ab b2 α2 β2 ≤ f_pl b2))
    (b : Board) (α : F) :
    ∀ (ms : List Move) (m β : F), α < min β m →
      abLoopMin cfg f_ab b α ms m (min β m) ≤ m ∧
        min (min β m)
            (ms.foldl (fun acc mv => min acc (f_pl (apply_move cfg b mv (-1)))) m)
          ≤ abLoopMin cfg f_ab b α ms m (min β m) ∧
        (abLoopMin cfg f_ab b α ms m (min β m) ≤ α ∨
          abLoopMin cfg f_ab b α ms m (min β m)
            ≤ ms.foldl (fun acc mv => min acc (f_pl (apply_move cfg b mv (-1)))) m) := by
  intro ms
  induction ms with
  | nil =>
    intro m β h
    simp only [abLoopMin, List.foldl_nil]
    exact ⟨le_rfl, min_le_right _ _, Or.inr le_rfl⟩
  | cons mv rest ih =>
    intro m β h
    simp only [abLoopMin, List.foldl_cons]
    set e := f_ab (apply_move cfg b mv (-1)) α (min β m) with he
    set v1 := f_pl (apply_move cfg b mv (-1)) with hv1
    have hch := hchild (apply_move cfg b mv (-1)) α (min β m) h
    rw [← he, ← hv1] at hch
    by_cases hbr : min (min β m) e ≤ α
    · simp only [if_pos hbr]
      have hαe : e ≤ α := by
        rcases min_le_iff.mp hbr with h1 | h1
        · exact absurd h1 (not_le.mpr h)
        · exact h1
      have hv1α : v1 ≤ α := by
        by_contra hcon
        push_neg at hcon
        rcases le_or_lt (min β m) v1 with hv | hv
        · exact absurd (le_trans (hch.2.2 hv).1 hαe) (not_le.mpr h)
        · rw [hch.1 hcon hv] at hαe
          exact absurd hαe (not_le.mpr hcon)
      have hv1e : v1 ≤ e := (hch.2.1 hv1α).1
      refine ⟨min_le_left _ _, ?_, Or.inl (le_trans (min_le_right m e) hαe)⟩
      have h1 : min m v1 ≤ min m e := min_le_min le_rfl hv1e
      have h2 : rest.foldl
          (fun acc mv => min acc (f_pl (apply_move cfg b mv (-1)))) (min m v1)
          ≤ min m v1 :=
        foldl_min_le _ _ _
      exact le_trans (min_le_right _ _) (le_trans h2 h1)
    · simp only [if_neg hbr]
      have ha' : min (min β m) e = min β (min m e) := min_assoc β m e
      rw [ha']
      have h' : α < min β (min m e) := by
        rw [← ha']
        exact not_le.mp hbr
      obtain ⟨ih1, ih2, ih3⟩ := ih (min m e) β h'
      by_cases hv1α : v1 ≤ α
      · exact absurd (le_trans (min_le_right (min β m) e) (hch.2.1 hv1α).2) hbr
      · push_neg at hv1α
        rcases le_or_lt (min β m) v1 with hvge | hvlt
        · obtain ⟨hβe, hev1⟩ := hch.2.2 hvge
          have hβm : min β (min m e) = min β m := by
            rw [← min_assoc, min_eq_left hβe]
          rw [hβm] at ih1 ih2 ih3 ⊢
          refine ⟨le_trans ih1 (min_le_left m e), ?_, ?_⟩
          · have hw' : min (min β m) (rest.foldl
                  (fun acc mv => min acc (f_pl (apply_move cfg b mv (-1)))) (min m v1))
                ≤ rest.foldl
                  (fun acc mv => min acc (f_pl (apply_move cfg b mv (-1)))) (min m e) := by
              rw [foldl_min_split _ rest (min m e), foldl_min_split _ rest (min m v1)]
              have hseed : min (min β m) (min m v1) ≤ min m e :=
                le_min (le_trans (min_le_right _ _) (min_le_left m v1))
                  (le_trans (min_le_left _ _) hβe)
              exact le_min (le_trans (min_le_min le_rfl (min_le_left _ _)) hseed)
                (le_trans (min_le_right _ _) (min_le_right (min m v1) _))
            refine le_trans (le_min (min_le_left _ _) hw') ih2
          · rcases ih3 with h3 | h3
            · exact Or.inl h3
            · exact Or.inr
                (le_trans h3 (foldl_min_mono _ rest (min_le_min le_rfl hev1)))
        · have he_eq : e = v1 := hch.1 hv1α hvlt
          rw [he_eq] at ih1 ih2 ih3 ⊢
          refine ⟨le_trans ih1 (min_le_left m v1), ?_, ih3⟩
          have hwv1 : rest.foldl
              (fun acc mv => min acc (f_pl (apply_move cfg b mv (-1)))) (min m v1)
              ≤ v1 :=
            le_trans (foldl_min_le _ _ _) (min_le_right m v1)
          have hbound : min (min β m)
              (rest.foldl (fun acc mv => min acc (f_pl (apply_move cfg b mv (-1))))
                (min m v1))
              ≤ min β (min m v1) := by
            rw [← min_assoc]
            exact le_min (min_le_left _ _) (le_trans (min_le_right _ _) hwv1)
          exact le_trans (le_min hbound (min_le_right _ _)) ih2

theorem R_of_eq {r v : F} (α β : F) (h : r = v) :
    (α < v → v < β → r = v) ∧ (v ≤ α → v ≤ r ∧ r ≤ α) ∧
      (β ≤ v → β ≤ r ∧ r ≤ v) := by
  subst h
  exact ⟨fun _ _ => rfl, fun h1 => ⟨le_rfl, h1⟩, fun h1 => ⟨h1, le_rfl⟩⟩

theorem minimax_spec (cfg : Config) :
    ∀ (d : Nat) (b : Board) (p : Int) (α β : F), α < β →
      (α < minimax_noprune cfg b d p → minimax_noprune cfg b d p < β →
        minimax cfg b d α β p = minimax_noprune cfg b d p) ∧
        (minimax_noprune cfg b d p ≤ α →
          minimax_noprune cfg b d p ≤ minimax cfg b d α β p ∧
            minimax cfg b d α β p ≤ α) ∧
        (β ≤ minimax_noprune cfg b d p →
          β ≤ minimax cfg b d α β p ∧
            minimax cfg b d α β p ≤ minimax_noprune cfg b d p) := by
  intro d
  induction d with
  | zero =>
    intro b p α β hαβ
    refine R_of_eq α β ?_
    rw [minimax, minimax_noprune]
  | succ d ih =>
    intro b p α β hαβ
    by_cases ht : (is_terminal cfg b p).1 = true
    · refine R_of_eq α β ?_
      rw [minimax, minimax_noprune]
      simp [ht]
    · by_cases hleg : get_legal_moves cfg b p = []
      · refine R_of_eq α β ?_
        rw [minimax, minimax_noprune]
        simp [ht, hleg]
      · by_cases hp1 : p = 1
        · subst hp1
          have hab : minimax cfg b (d + 1) α β 1
              = abLoopMax cfg (fun b2 a2 b2' => minimax cfg b2 d a2 b2' (-1)) b β
                  (get_legal_moves cfg b 1) F.ninf α := by
            rw [minimax]
            simp [ht, hleg]
          have hpl : minimax_noprune cfg b (d + 1) 1
              = (get_legal_moves cfg b 1).foldl
                  (fun acc mv =>
                    max acc (minimax_noprune cfg (apply_move cfg b mv 1) d (-1)))
                  F.ninf := by
            rw [minimax_noprune]
            simp [ht, hleg]
          have hm : max α F.ninf = α := max_eq_left (F.ninf_le α)
          have hloop := abLoopMax_spec cfg
            (fun b2 a2 b2' => minimax cfg b2 d a2 b2' (-1))
            (fun b2 => minimax_noprune cfg b2 d (-1))
            (fun b2 α2 β2 h2 => ih b2 (-1) α2 β2 h2) b β
            (get_legal_moves cfg b 1) F.ninf α (by rwa [hm])
          rw [hm] at hloop
          obtain ⟨-, h2, h3⟩ := hloop
          rw [hab, hpl]
          refine ⟨?_, ?_, ?_⟩
          · intro hαv hvβ
            rcases h3 with h3 | h3
            · exact absurd (lt_of_le_of_lt (le_trans h3
                (le_trans h2 (le_of_eq (max_eq_right (le_of_lt hαv))))) hvβ)
                (lt_irrefl β)
            · exact le_antisymm
                (le_trans h2 (le_of_eq (max_eq_right (le_of_lt hαv)))) h3
          · intro hvα
            have hr : abLoopMax cfg (fun b2 a2 b2' => minimax cfg b2 d a2 b2' (-1))
                b β (get_legal_moves cfg b 1) F.ninf α ≤ α :=
              le_trans h2 (le_of_eq (max_eq_left hvα))
            rcases h3 with h3 | h3
            · exact absurd (lt_of_le_of_lt (le_trans h3 hr) hαβ) (lt_irrefl β)
            · exact ⟨h3, hr⟩
          · intro hβv
            have hαv : α ≤ _ := le_trans (le_of_lt hαβ) hβv
            rcases h3 with h3 | h3
            · exact ⟨h3, le_trans h2 (le_of_eq (max_eq_right hαv))⟩
            · exact ⟨le_trans hβv h3, le_trans h2 (le_of_eq (max_eq_right hαv))⟩
        · have hab : minimax cfg b (d + 1) α β p
              = abLoopMin cfg (fun b2 a2 b2' => minimax cfg b2 d a2 b2' 1) b α
                  (get_legal_moves cfg b p) F.pinf β := by
            rw [minimax]
            simp [ht, hleg, hp1]
          have hpl : minimax_noprune cfg b (d + 1) p
              = (get_legal_moves cfg b p).foldl
                  (fun acc mv =>
                    min acc (minimax_noprune cfg (apply_move cfg b mv (-1)) d 1))
                  F.pinf := by
            rw [minimax_noprune]
            simp [ht, hleg, hp1]
          have hm : min β F.pinf = β := min_eq_left (F.le_pinf β)
          have hloop := abLoopMin_spec cfg
            (fun b2 a2 b2' => minimax cfg b2 d a2 b2' 1)
            (fun b2 => minimax_noprune cfg b2 d 1)
            (fun b2 α2 β2 h2 => ih b2 1 α2 β2 h2) b α
            (get_legal_moves cfg b p) F.pinf β (by rwa [hm])
          rw [hm] at hloop
          obtain ⟨-, h2, h3⟩ := hloop
          rw [hab, hpl]
          refine ⟨?_, ?_, ?_⟩
          · intro hαv hvβ
            rcases h3 with h3 | h3
            · have hvler := le_trans
                (le_of_eq (min_eq_right (le_of_lt hvβ)).symm) h2
              exact absurd (lt_of_lt_of_le hαv (le_trans hvler h3)) (lt_irrefl α)
            · exact le_antisymm h3
                (le_trans (le_of_eq (min_eq_right (le_of_lt hvβ)).symm) h2)
          · intro hvα
            have hvβ2 : List.foldl (fun acc mv => min acc
                (minimax_noprune cfg (apply_move cfg b mv (-1)) d 1)) F.pinf
                (get_legal_moves cfg b p) ≤ β := le_trans hvα (le_of_lt hαβ)
            have hvr := le_trans (le_of_eq (min_eq_right hvβ2).symm) h2
            rcases h3 with h3 | h3
            · exact ⟨hvr, h3⟩
            · exact ⟨hvr, le_trans h3 hvα⟩
          · intro hβv
            have hβr : β ≤ _ := le_trans (le_of_eq (min_eq_left hβv).symm) h2
            rcases h3 with h3 | h3
            · exact absurd (lt_of_le_of_lt (le_trans hβr h3) hαβ) (lt_irrefl β)
            · exact ⟨hβr, h3⟩

theorem minimax_full_window (cfg : Config) (b : Board) (d : Nat) (p : Int) :
    minimax cfg b d F.ninf F.pinf p = minimax_noprune cfg b d p := by
  obtain ⟨q, hq⟩ := minimax_noprune_val cfg d b p
  refine (minimax_spec cfg d b p F.ninf F.pinf
    (lt_trans (F.ninf_lt_val 0) (F.val_lt_pinf 0))).1 ?_ ?_
  · rw [hq]
    exact F.ninf_lt_val q
  · rw [hq]
    exact F.val_lt_pinf q

theorem action_score_val (cfg : Config) (depth : Nat) (board : Board) (p : Int)
    (a : Move) : ∃ q, action_score cfg depth board p a = F.val q := by
  unfold action_score
  rw [minimax_full_window]
  exact minimax_noprune_val cfg _ _ _

theorem selLoop_max_noimp (cfg : Config) (depth : Nat) (board : Board) :
    ∀ (acts : List Move) (bs : F) (ba : Move),
      (∀ a ∈ acts, action_score cfg depth board 1 a ≤ bs) →
      selLoop cfg depth board 1 acts bs ba = (bs, ba) := by
  intro acts
  induction acts with
  | nil =>
    intro bs ba _
    simp only [selLoop]
  | cons x rest ih =>
    intro bs ba h
    simp only [selLoop, if_true]
    rw [if_neg (not_lt.mpr (h x (List.mem_cons_self x rest)))]
    exact ih bs ba (fun a ha => h a (List.mem_cons_of_mem x ha))

theorem selLoop_min_noimp (cfg : Config) (depth : Nat) (board : Board) :
    ∀ (acts : List Move) (bs : F) (ba : Move),
      (∀ a ∈ acts, bs ≤ action_score cfg depth board (-1) a) →
      selLoop cfg depth board (-1) acts bs ba = (bs, ba) := by
  intro acts
  induction acts with
  | nil =>
    intro bs ba _
    simp only [selLoop]
  | cons x rest ih =>
    intro bs ba h
    simp only [selLoop, if_false]
    rw [if_neg (not_lt.mpr (h x (List.mem_cons_self x rest)))]
    exact ih bs ba (fun a ha => h a (List.mem_cons_of_mem x ha))

theorem selLoop_max_find (cfg : Config) (depth : Nat) (board : Board) :
    ∀ (acts : List Move) (bs : F) (ba : Move),
      bs < acts.foldl
          (fun acc a => max acc (action_score cfg depth board 1 a)) F.ninf →
      ∃ a, selLoop cfg depth board 1 acts bs ba
          = (acts.foldl
              (fun acc a => max acc (action_score cfg depth board 1 a)) F.ninf, a) ∧
        acts.find? (fun x => action_score cfg depth board 1 x
            == acts.foldl
              (fun acc a => max acc (action_score cfg depth board 1 a)) F.ninf)
          = some a := by
  intro acts
  induction acts with
  | nil =>
    intro bs ba h
    simp only [List.foldl_nil] at h
    exact absurd h (not_lt.mpr (F.ninf_le bs))
  | cons x rest ih =>
    intro bs ba h
    have hsx : max F.ninf (action_score cfg depth board 1 x)
        = action_score cfg depth board 1 x :=
      max_eq_right (F.ninf_le _)
    simp only [List.foldl_cons, hsx] at h ⊢
    have hsplit : rest.foldl
        (fun acc a => max acc (action_score cfg depth board 1 a))
        (action_score cfg depth board 1 x)
        = max (action_score cfg depth board 1 x)
            (rest.foldl
              (fun acc a => max acc (action_score cfg depth board 1 a)) F.ninf) :=
      foldl_max_split _ rest _
    simp only [selLoop, if_true]
    by_cases hx : bs < action_score cfg depth board 1 x
    · rw [if_pos hx]
      by_cases hxS : rest.foldl
          (fun acc a => max acc (action_score cfg depth board 1 a)) F.ninf
          ≤ action_score cfg depth board 1 x
      · have heq : rest.foldl
            (fun acc a => max acc (action_score cfg depth board 1 a))
            (action_score cfg depth board 1 x)
            = action_score cfg depth board 1 x := by
          rw [hsplit, max_eq_left hxS]
        rw [heq]
        refine ⟨x, ?_, ?_⟩
        · refine selLoop_max_noimp cfg depth board rest _ x (fun a ha => ?_)
          exact le_trans (elem_le_foldl_max _ rest F.ninf a ha) hxS
        · rw [List.find?_cons_of_pos _ (by simp)]
      · push_neg at hxS
        have heq : rest.foldl
            (fun acc a => max acc (action_score cfg depth board 1 a))
            (action_score cfg depth board 1 x)
            = rest.foldl
              (fun acc a => max acc (action_score cfg depth board 1 a)) F.ninf := by
          rw [hsplit, max_eq_right (le_of_lt hxS)]
        rw [heq]
        obtain ⟨a, hloop, hfind⟩ := ih (action_score cfg depth board 1 x) x hxS
        have hpx : ¬ (action_score cfg depth board 1 x
            == rest.foldl
              (fun acc a => max acc (action_score cfg depth board 1 a)) F.ninf)
            = true := by
          simp only [beq_iff_eq]
          exact ne_of_lt hxS
        refine ⟨a, hloop, ?_⟩
        have hstep : (x :: rest).find? (fun z => action_score cfg depth board 1 z
              == rest.foldl
                (fun acc a => max acc (action_score cfg depth board 1 a)) F.ninf)
            = rest.find? (fun z => action_score cfg depth board 1 z
              == rest.foldl
                (fun acc a => max acc (action_score cfg depth board 1 a)) F.ninf) :=
          List.find?_cons_of_neg rest hpx
        rw [hstep, hfind]
    · rw [if_neg hx]
      push_neg at hx
      have hbsS : bs < rest.foldl
          (fun acc a => max acc (action_score cfg depth board 1 a)) F.ninf := by
        rw [hsplit] at h
        rcases lt_max_iff.mp h with h1 | h1
        · exact absurd h1 (not_lt.mpr hx)
        · exact h1
      have heq : rest.foldl
          (fun acc a => max acc (action_score cfg depth board 1 a))
          (action_score cfg depth board 1 x)
          = rest.foldl
            (fun acc a => max acc (action_score cfg depth board 1 a)) F.ninf := by
        rw [hsplit, max_eq_right (le_of_lt (lt_of_le_of_lt hx hbsS))]
      rw [heq]
      obtain ⟨a, hloop, hfind⟩ := ih bs ba hbsS
      have hpx : ¬ (action_score cfg depth board 1 x
          == rest.foldl
            (fun acc a => max acc (action_score cfg depth board 1 a)) F.ninf)
          = true := by
        simp only [beq_iff_eq]
        exact ne_of_lt (lt_of_le_of_lt hx hbsS)
      refine ⟨a, hloop, ?_⟩
      have hstep : (x :: rest).find? (fun z => action_score cfg depth board 1 z
            == rest.foldl
              (fun acc a => max acc (action_score cfg depth board 1 a)) F.ninf)
          = rest.find? (fun z => action_score cfg depth board 1 z
            == rest.foldl
              (fun acc a => max acc (action_score cfg depth board 1 a)) F.ninf) :=
        List.find?_cons_of_neg rest hpx
      rw [hstep, hfind]

theorem selLoop_min_find (cfg : Config) (depth : Nat) (board : Board) :
    ∀ (acts : List Move) (bs : F) (ba : Move),
      acts.foldl
          (fun acc a => min acc (action_score cfg depth board (-1) a)) F.pinf < bs →
      ∃ a, selLoop cfg depth board (-1) acts bs ba
          = (acts.foldl
              (fun acc a => min acc (action_score cfg depth board (-1) a)) F.pinf, a) ∧
        acts.find? (fun x => action_score cfg depth board (-1) x
            == acts.foldl
              (fun acc a => min acc (action_score cfg depth board (-1) a)) F.pinf)
          = some a := by
  intro acts
  induction acts with
  | nil =>
    intro bs ba h
    simp only [List.foldl_nil] at h
    exact absurd h (not_lt.mpr (F.le_pinf bs))
  | cons x rest ih =>
    intro bs ba h
    have hsx : min F.pinf (action_score cfg depth board (-1) x)
        = action_score cfg depth board (-1) x :=
      min_eq_right (F.le_pinf _)
    simp only [List.foldl_cons, hsx] at h ⊢
    have hsplit : rest.foldl
        (fun acc a => min acc (action_score cfg depth board (-1) a))
        (action_score cfg depth board (-1) x)
        = min (action_score cfg depth board (-1) x)
            (rest.foldl
              (fun acc a => min acc (action_score cfg depth board (-1) a)) F.pinf) :=
      foldl_min_split _ rest _
    simp only [selLoop, if_false]
    by_cases hx : action_score cfg depth board (-1) x < bs
    · rw [if_pos hx]
      by_cases hxS : action_score cfg depth board (-1) x
          ≤ rest.foldl
            (fun acc a => min acc (action_score cfg depth board (-1) a)) F.pinf
      · have heq : rest.foldl
            (fun acc a => min acc (action_score cfg depth board (-1) a))
            (action_score cfg depth board (-1) x)
            = action_score cfg depth board (-1) x := by
          rw [hsplit, min_eq_left hxS]
        rw [heq]
        refine ⟨x, ?_, ?_⟩
        · refine selLoop_min_noimp cfg depth board rest _ x (fun a ha => ?_)
          exact le_trans hxS (foldl_min_le_elem _ rest F.pinf a ha)
        · rw [List.find?_cons_of_pos _ (by simp)]
      · push_neg at hxS
        have heq : rest.foldl
            (fun acc a => min acc (action_score cfg depth board (-1) a))
            (action_score cfg depth board (-1) x)
            = rest.foldl
              (fun acc a => min acc (action_score cfg depth board (-1) a)) F.pinf := by
          rw [hsplit, min_eq_right (le_of_lt hxS)]
        rw [heq]
        obtain ⟨a, hloop, hfind⟩ := ih (action_score cfg depth board (-1) x) x hxS
        have hpx : ¬ (action_score cfg depth board (-1) x
            == rest.foldl
              (fun acc a => min acc (action_score cfg depth board (-1) a)) F.pinf)
            = true := by
          simp only [beq_iff_eq]
          exact ne_of_gt hxS
        refine ⟨a, hloop, ?_⟩
        have hstep : (x :: rest).find? (fun z => action_score cfg depth board (-1) z
              == rest.foldl
                (fun acc a => min acc (action_score cfg depth board (-1) a)) F.pinf)
            = rest.find? (fun z => action_score cfg depth board (-1) z
              == rest.foldl
                (fun acc a => min acc (action_score cfg depth board (-1) a)) F.pinf) :=
          List.find?_cons_of_neg rest hpx
        rw [hstep, hfind]
    · rw [if_neg hx]
      push_neg at hx
      have hbsS : rest.foldl
          (fun acc a => min acc (action_score cfg depth board (-1) a)) F.pinf < bs := by
        rw [hsplit] at h
        rcases min_lt_iff.mp h with h1 | h1
        · exact absurd h1 (not_lt.mpr hx)
        · exact h1
      have heq : rest.foldl
          (fun acc a => min acc (action_score cfg depth board (-1) a))
          (action_score cfg depth board (-1) x)
          = rest.foldl
            (fun acc a => min acc (action_score cfg depth board (-1) a)) F.pinf := by
        rw [hsplit, min_eq_right (le_of_lt (lt_of_lt_of_le hbsS hx))]
      rw [heq]
      obtain ⟨a, hloop, hfind⟩ := ih bs ba hbsS
      have hpx : ¬ (action_score cfg depth board (-1) x
          == rest.foldl
            (fun acc a => min acc (action_score cfg depth board (-1) a)) F.pinf)
          = true := by
        simp only [beq_iff_eq]
        exact ne_of_gt (lt_of_lt_of_le hbsS hx)
      refine ⟨a, hloop, ?_⟩
      have hstep : (x :: rest).find? (fun z => action_score cfg depth board (-1) z
            == rest.foldl
              (fun acc a => min acc (action_score cfg depth board (-1) a)) F.pinf)
          = rest.find? (fun z => action_score cfg depth board (-1) z
            == rest.foldl
              (fun acc a => min acc (action_score cfg depth board (-1) a)) F.pinf) :=
        List.find?_cons_of_neg rest hpx
      rw [hstep, hfind]

/-- C1.  The claim says: on a board where exactly one player has zero pieces,
`is_terminal(board, current_player)` returns `(true, w)` with `w` the player
that still has pieces, for both values of `current_player`.  The code breaks
this for `current_player = -1`: its scan reads positive cells as the current
player's and negative cells as the opponent's regardless of who the current
player is (rules.py lines 371-375), so on a board whose only piece is a -1
man it returns winner +1 — the player with zero pieces — while `w` should
be -1.  This theorem evaluates the embedded code at that input: the board
has a -1 piece and no +1 piece, yet the winner returned is +1. -/
theorem claim_C1 :
    (∃ q ∈ gridList 8, boardOnlyBlack q < 0) ∧
      (∀ q ∈ gridList 8, ¬ boardOnlyBlack q > 0) ∧
      is_terminal Config.default boardOnlyBlack (-1) = (true, some 1) := by
  decide

/-- C2.  The claim says `apply_move` always removes exactly
`len(move.captures)` pieces and relocates one piece from `from_pos` to
`to_pos`, in particular for every multi-jump move from `legal_moves`.  The
code breaks this for multi-jump moves: `_generate_captures_recursive`
records as `from_pos` the square reached before the final jump (rules.py
line 261 uses the recursive call's `row, col`), so `apply_move` moves the
empty intermediate square instead of the piece.  On `boardDoubleJump`
(3 pieces), the only legal move captures 2 pieces, so the claim demands 1
remaining piece, but the code leaves 2: the moving man stays on (3, 0) and
the promotion write conjures a fresh king on (7, 4). -/
theorem claim_C2 :
    get_legal_moves Config.default boardDoubleJump 1 = [moveDoubleJump] ∧
      moveDoubleJump.captures.length = 2 ∧
      totalPieces 8 boardDoubleJump = 3 ∧
      totalPieces 8 (apply_move Config.default boardDoubleJump moveDoubleJump 1) = 2 ∧
      apply_move Config.default boardDoubleJump moveDoubleJump 1 (3, 0) = 1 := by
  decide

/-- C3.  The claim says every legal move in which a man reaches the farthest
row — including mid-sequence with further jumps after it — has
`promotion == true` and `apply_move` leaves the player's king on the
destination cell.  On `boardMidPromo` the man reaches row 7 on its first
jump (landing on (7, 2)) and continues capturing as a king, but the single
returned move carries `promotion = false` (the flag is rebuilt only from
the final jump, rules.py lines 229-264), and applying it leaves 0 — not the
king value 2 — on the destination (5, 4). -/
theorem claim_C3 :
    get_legal_moves Config.default boardMidPromo 1 = [moveMidPromo] ∧
      moveMidPromo.promotion = false ∧
      apply_move Config.default boardMidPromo moveMidPromo 1 (5, 4) = 0 := by
  decide

/-- C7.  Calling `select_action` with an empty legal-move list returns the
explicit failure value `None` (modelled as `none`), which is distinct from
every `some move`, rather than a default move. -/
theorem claim_C7 (cfg : Config) (depth : Nat) (board : Board) (player : Int) :
    select_action cfg depth board [] player = none := rfl

/-- C8 counterexample.  The claim says `evaluate_board` returns exactly 0.0
on every board with exactly one man of each color, but the center-control
bonus breaks the symmetry: with the +1 man on center square (3, 4) and the
-1 man on (0, 1), the evaluation is 11 - 10 = 1, not 0. -/
theorem claim_C8_counterexample :
    one_man_each 8 boardCenterImbalance ∧
      evaluate_board 8 boardCenterImbalance = 1 ∧
      evaluate_board 8 boardCenterImbalance ≠ 0 := by
  decide

/-- C8 (amended).  For every board with exactly one +1 man and exactly one
-1 man and no other pieces, `evaluate_board` returns exactly 0 provided the
two men are either both inside or both outside the center region (rows and
columns in set 3, 4); the counterexample above shows the original claim
fails when exactly one of the men collects the center bonus. -/
theorem claim_C8 (b : Board) (h : one_man_each 8 b)
    (hc : ∀ q1 ∈ gridList 8, ∀ q2 ∈ gridList 8, b q1 = 1 → b q2 = -1 →
      (in_center q1 ↔ in_center q2)) :
    evaluate_board 8 b = 0 := by
  obtain ⟨h1, h2, hv⟩ := h
  obtain ⟨q1, hq1⟩ := List.length_eq_one.mp h1
  obtain ⟨q2, hq2⟩ := List.length_eq_one.mp h2
  have hq1f : q1 ∈ gridList 8 ∧ b q1 = 1 := by
    have hmem : q1 ∈ (gridList 8).filter (fun q => b q = 1) := by
      rw [hq1]
      exact List.mem_singleton_self q1
    have := List.mem_filter.mp hmem
    exact ⟨this.1, by simpa using this.2⟩
  have hq2f : q2 ∈ gridList 8 ∧ b q2 = -1 := by
    have hmem : q2 ∈ (gridList 8).filter (fun q => b q = -1) := by
      rw [hq2]
      exact List.mem_singleton_self q2
    have := List.mem_filter.mp hmem
    exact ⟨this.1, by simpa using this.2⟩
  have hne : q1 ≠ q2 := by
    rintro rfl
    rw [hq1f.2] at hq2f
    omega
  have huniq : ∀ q ∈ gridList 8, q ≠ q1 → q ≠ q2 → b q = 0 := by
    intro q hq hne1 hne2
    rcases hv q hq with hb | hb | hb
    · exfalso
      apply hne1
      have hmem : q ∈ (gridList 8).filter (fun q => b q = 1) :=
        List.mem_filter.mpr ⟨hq, by simpa using hb⟩
      rw [hq1] at hmem
      simpa using hmem
    · exfalso
      apply hne2
      have hmem : q ∈ (gridList 8).filter (fun q => b q = -1) :=
        List.mem_filter.mpr ⟨hq, by simpa using hb⟩
      rw [hq2] at hmem
      simpa using hmem
    · exact hb
  have hcount1 : (gridList 8).countP (fun q => decide (b q > 0)) = 1 := by
    rw [List.countP_eq_length_filter,
      List.filter_congr (fun q hq => ?_), h1]
    rcases hv q hq with hb | hb | hb <;> simp [hb]
  have hcount2 : (gridList 8).countP (fun q => decide (b q < 0)) = 1 := by
    rw [List.countP_eq_length_filter,
      List.filter_congr (fun q hq => ?_), h2]
    rcases hv q hq with hb | hb | hb <;> simp [hb]
  rw [evaluate_board_sum, hcount1, hcount2]
  rw [if_neg (by omega), if_neg (by omega)]
  rw [sum_two_points (evalCell b) (gridList 8) (gridList_nodup 8)
    q1 hq1f.1 q2 hq2f.1 hne
    (fun q hq hn1 hn2 => by
      unfold evalCell
      rw [huniq q hq hn1 hn2]
      simp)]
  have hcc := hc q1 hq1f.1 q2 hq2f.1 hq1f.2 hq2f.2
  unfold evalCell
  rw [hq1f.2, hq2f.2]
  by_cases hctr : (q1.1 = 3 ∨ q1.1 = 4) ∧ (q1.2 = 3 ∨ q1.2 = 4)
  · have hctr2 : (q2.1 = 3 ∨ q2.1 = 4) ∧ (q2.2 = 3 ∨ q2.2 = 4) := by
      have := hcc.mp
      unfold in_center at this
      exact this hctr
    rw [if_pos hctr, if_pos hctr2]
    decide
  · have hctr2 : ¬ ((q2.1 = 3 ∨ q2.1 = 4) ∧ (q2.2 = 3 ∨ q2.2 = 4)) := by
      intro hcon
      apply hctr
      have := hcc.mpr
      unfold in_center at this
      exact this hcon
    rw [if_neg hctr, if_neg hctr2]
    decide

set_option maxRecDepth 10000 in
/-- Witness for the amended C8 on a concrete board with both men outside
the center. -/
theorem claim_C8_witness :
    one_man_each 8 boardTwoMen ∧
      (∀ q1 ∈ gridList 8, ∀ q2 ∈ gridList 8, boardTwoMen q1 = 1 →
        boardTwoMen q2 = -1 → (in_center q1 ↔ in_center q2)) ∧
      evaluate_board 8 boardTwoMen = 0 :=
  ⟨by decide, by decide, claim_C8 boardTwoMen (by decide) (by decide)⟩

/-- C4.  Forced capture: if `capture_forced` is configured and at least one
capture sequence exists for the player (the scan's `capture_moves` list is
nonempty), every move returned by `get_legal_moves` is a capture (its
captures list is nonempty); no simple moves are mixed in. -/
theorem claim_C4 (cfg : Config) (b : Board) (player : Int)
    (hcf : cfg.capture_forced = true)
    (hex : captureMovesOf cfg b player ≠ []) :
    ∀ m ∈ get_legal_moves cfg b player, m.captures ≠ [] := by
  intro m hm
  simp only [get_legal_moves] at hm
  rw [if_pos ⟨hcf, hex⟩] at hm
  have hmem : m ∈ captureMovesOf cfg b player := by
    rcases mem_ite_or hm with ⟨-, hm⟩ | ⟨-, hm⟩
    · exact List.mem_of_mem_filter hm
    · exact hm
  exact (captureMovesOf_spec cfg b player m hmem).1

/-- Witness for C4 on a concrete board with a forced capture. -/
theorem claim_C4_witness :
    Config.default.capture_forced = true ∧
      captureMovesOf Config.default boardSingleCapture 1 ≠ [] ∧
      moveSingleCapture ∈ get_legal_moves Config.default boardSingleCapture 1 ∧
      moveSingleCapture.captures ≠ [] :=
  ⟨rfl, by decide, by decide,
    claim_C4 Config.default boardSingleCapture 1 rfl (by decide)
      moveSingleCapture (by decide)⟩

/-- C5.  Longest-capture dominance: with `capture_forced` and
`prefer_longest_capture` both set and at least one capture sequence
available, every returned move is one of the collected capture sequences,
its `sequence_length` equals its capture count, that count is maximal among
all capture sequences available to the player, and all returned moves share
it. -/
theorem claim_C5 (cfg : Config) (b : Board) (player : Int)
    (hcf : cfg.capture_forced = true) (hpl : cfg.prefer_longest_capture = true)
    (hex : captureMovesOf cfg b player ≠ []) :
    ∀ m ∈ get_legal_moves cfg b player,
      m ∈ captureMovesOf cfg b player ∧
        m.sequence_length = m.captures.length ∧
        (∀ m' ∈ captureMovesOf cfg b player,
          m'.captures.length ≤ m.captures.length) ∧
        (∀ m' ∈ get_legal_moves cfg b player,
          m'.captures.length = m.captures.length) := by
  have hlegal : get_legal_moves cfg b player
      = (captureMovesOf cfg b player).filter
          (fun m => m.captures.length
            == ((captureMovesOf cfg b player).map
                  (fun m => m.captures.length)).foldr max 0) := by
    simp only [get_legal_moves]
    rw [if_pos ⟨hcf, hex⟩, if_pos hpl]
  intro m hm
  rw [hlegal] at hm
  have hmem := List.mem_of_mem_filter hm
  have hlen : m.captures.length
      = ((captureMovesOf cfg b player).map (fun m => m.captures.length)).foldr max 0 := by
    have h := List.of_mem_filter hm
    simpa using h
  refine ⟨hmem, ?_, ?_, ?_⟩
  · have hne := (captureMovesOf_spec cfg b player m hmem).1
    unfold Move.sequence_length
    rw [if_neg hne]
    rfl
  · intro m' hm'
    rw [hlen]
    exact le_foldr_max _ _ (List.mem_map_of_mem _ hm')
  · intro m' hm'
    rw [hlegal] at hm'
    have hlen' : m'.captures.length
        = ((captureMovesOf cfg b player).map (fun m => m.captures.length)).foldr max 0 := by
      have h := List.of_mem_filter hm'
      simpa using h
    rw [hlen', hlen]

/-- Witness for C5 on a concrete board. -/
theorem claim_C5_witness :
    Config.default.capture_forced = true ∧
      Config.default.prefer_longest_capture = true ∧
      captureMovesOf Config.default boardSingleCapture 1 ≠ [] ∧
      moveSingleCapture ∈ get_legal_moves Config.default boardSingleCapture 1 ∧
      moveSingleCapture.sequence_length = moveSingleCapture.captures.length :=
  ⟨rfl, rfl, by decide, by decide,
    (claim_C5 Config.default boardSingleCapture 1 rfl rfl (by decide)
      moveSingleCapture (by decide)).2.1⟩

/-- C10.  Every move returned by `get_legal_moves` has pairwise-distinct
capture positions, each holding an opponent piece (a cell value of sign
opposite to the player) on the input board. -/
theorem claim_C10 (cfg : Config) (b : Board) (player : Int)
    (hp : player = 1 ∨ player = -1) :
    ∀ m ∈ get_legal_moves cfg b player,
      m.captures.Nodup ∧ ∀ q ∈ m.captures, b q * player < 0 := by
  intro m hm
  rcases get_legal_moves_cases cfg b player m hm with hc | hs
  · exact (captureMovesOf_spec cfg b player m hc).2 hp
  · rw [simpleMovesOf_captures cfg b player m hs]
    exact ⟨List.nodup_nil, by simp⟩

/-- Witness for C10 on a concrete board. -/
theorem claim_C10_witness :
    ((1 : Int) = 1 ∨ (1 : Int) = -1) ∧
      moveSingleCapture ∈ get_legal_moves Config.default boardSingleCapture 1 ∧
      moveSingleCapture.captures.Nodup ∧
      ∀ q ∈ moveSingleCapture.captures, boardSingleCapture q * 1 < 0 :=
  ⟨Or.inl rfl, by decide,
    claim_C10 Config.default boardSingleCapture 1 (Or.inl rfl)
      moveSingleCapture (by decide)⟩

/-- C6.  Alpha-beta equivalence: for every configuration, depth, board,
candidate list and player, the selection loop of `select_action` computes
the same (best score, best action) pair — and `select_action` the same
move — whether each candidate is scored by alpha-beta pruned `minimax` on
a full window or by exhaustive `minimax_noprune` without pruning.  The key
fact is `minimax_full_window`: with the full window the pruned search
returns exactly the unpruned minimax value. -/
theorem claim_C6 (cfg : Config) (depth : Nat) (board : Board) :
    (∀ (acts : List Move) (player : Int) (bs : F) (ba : Move),
        selLoop cfg depth board player acts bs ba
          = selLoop_noprune cfg depth board player acts bs ba) ∧
      ∀ (acts : List Move) (player : Int),
        select_action cfg depth board acts player
          = select_action_noprune cfg depth board acts player := by
  have hscore : ∀ (player : Int) (a : Move),
      action_score cfg depth board player a
        = action_score_noprune cfg depth board player a := by
    intro player a
    unfold action_score action_score_noprune
    exact minimax_full_window cfg _ _ _
  have hloop : ∀ (acts : List Move) (player : Int) (bs : F) (ba : Move),
      selLoop cfg depth board player acts bs ba
        = selLoop_noprune cfg depth board player acts bs ba := by
    intro acts player
    induction acts with
    | nil =>
      intro bs ba
      simp only [selLoop, selLoop_noprune]
    | cons a rest ih =>
      intro bs ba
      simp only [selLoop, selLoop_noprune, hscore player a]
      split
      · split
        · exact ih _ _
        · exact ih _ _
      · split
        · exact ih _ _
        · exact ih _ _
  refine ⟨hloop, ?_⟩
  intro acts player
  cases acts with
  | nil => rfl
  | cons a rest =>
    simp only [select_action, select_action_noprune, hloop]

/-- C9.  Deterministic first-extreme tie-breaking: for a player in
{+1, -1} and a candidate list of at least two moves, `select_action`
returns exactly the first listed move whose minimax score attains the
extreme (maximum for +1, minimum for -1) over all listed moves — the
`List.find?` of the score-equals-best predicate.  Determinism on identical
inputs is immediate since `select_action` is a function of its arguments. -/
theorem claim_C9 (cfg : Config) (depth : Nat) (board : Board)
    (acts : List Move) (player : Int)
    (hp : player = 1 ∨ player = -1) (hlen : 2 ≤ acts.length) :
    select_action cfg depth board acts player
      = acts.find? (fun a => action_score cfg depth board player a
          == best_action_score cfg depth board acts player) := by
  rcases hp with rfl | rfl
  · have hbs : best_action_score cfg depth board acts 1
        = acts.foldl (fun acc a => max acc (action_score cfg depth board 1 a))
            F.ninf := by
      simp only [best_action_score, reduceIte]
      exact List.foldl_map _ _ _ _
    rw [hbs]
    cases acts with
    | nil => simp at hlen
    | cons a0 rest =>
      cases rest with
      | nil => simp at hlen
      | cons a1 rest' =>
        have hne : ¬ ((a0 :: a1 :: rest').length = 1) := by
          simp only [List.length_cons]
          omega
        have ha0 := elem_le_foldl_max (action_score cfg depth board 1)
          (a0 :: a1 :: rest') F.ninf a0 (by simp)
        obtain ⟨q, hq⟩ := action_score_val cfg depth board 1 a0
        have hlt : F.ninf < (a0 :: a1 :: rest').foldl
            (fun acc a => max acc (action_score cfg depth board 1 a)) F.ninf := by
          calc F.ninf < F.val q := F.ninf_lt_val q
            _ = action_score cfg depth board 1 a0 := hq.symm
            _ ≤ _ := ha0
        obtain ⟨a, hsel, hfind⟩ :=
          selLoop_max_find cfg depth board (a0 :: a1 :: rest') F.ninf a0 hlt
        rw [hfind]
        show (if (a0 :: a1 :: rest').length = 1 then some a0
            else some (selLoop cfg depth board 1 (a0 :: a1 :: rest')
              (if (1 : Int) = 1 then F.ninf else F.pinf) a0).2) = some a
        rw [if_neg hne, if_pos rfl, hsel]
  · have hbs : best_action_score cfg depth board acts (-1)
        = acts.foldl (fun acc a => min acc (action_score cfg depth board (-1) a))
            F.pinf := by
      simp only [best_action_score, reduceIte]
      exact List.foldl_map _ _ _ _
    rw [hbs]
    cases acts with
    | nil => simp at hlen
    | cons a0 rest =>
      cases rest with
      | nil => simp at hlen
      | cons a1 rest' =>
        have hne : ¬ ((a0 :: a1 :: rest').length = 1) := by
          simp only [List.length_cons]
          omega
        have ha0 := foldl_min_le_elem (action_score cfg depth board (-1))
          (a0 :: a1 :: rest') F.pinf a0 (by simp)
        obtain ⟨q, hq⟩ := action_score_val cfg depth board (-1) a0
        have hlt : (a0 :: a1 :: rest').foldl
            (fun acc a => min acc (action_score cfg depth board (-1) a)) F.pinf
            < F.pinf := by
          have h2 : action_score cfg depth board (-1) a0 < F.pinf := by
            rw [hq]
            exact F.val_lt_pinf q
          exact lt_of_le_of_lt ha0 h2
        obtain ⟨a, hsel, hfind⟩ :=
          selLoop_min_find cfg depth board (a0 :: a1 :: rest') F.pinf a0 hlt
        rw [hfind]
        show (if (a0 :: a1 :: rest').length = 1 then some a0
            else some (selLoop cfg depth board (-1) (a0 :: a1 :: rest')
              (if (-1 : Int) = 1 then F.ninf else F.pinf) a0).2) = some a
        rw [if_neg hne, if_neg (by decide : ¬ ((-1 : Int) = 1)), hsel]

/-- Witness for C9: two simple moves of a lone +1 man; both score equally,
so the first listed move is selected. -/
theorem claim_C9_witness :
    ((1 : Int) = 1 ∨ (1 : Int) = -1) ∧
      2 ≤ ([⟨(2, 1), (3, 0), [], false⟩, ⟨(2, 1), (3, 2), [], false⟩] :
        List Move).length ∧
      select_action Config.default 1 boardOnlyBlack
          [⟨(2, 1), (3, 0), [], false⟩, ⟨(2, 1), (3, 2), [], false⟩] 1
        = ([⟨(2, 1), (3, 0), [], false⟩, ⟨(2, 1), (3, 2), [], false⟩] :
            List Move).find?
            (fun a => action_score Config.default 1 boardOnlyBlack 1 a
              == best_action_score Config.default 1 boardOnlyBlack
                  [⟨(2, 1), (3, 0), [], false⟩, ⟨(2, 1), (3, 2), [], false⟩] 1) :=
  ⟨Or.inl rfl, by decide,
    claim_C9 Config.default 1 boardOnlyBlack
      [⟨(2, 1), (3, 0), [], false⟩, ⟨(2, 1), (3, 2), [], false⟩] 1
      (Or.inl rfl) (by decide)⟩

end Checkers

